import Mathlib

/-!
# ImageCompression: run-length codec, PSNR metric, quantizer and DCT pair

A shallow embedding of `src/main.cpp`.

* An `unsigned char` is a `Nat` below `256`; every arithmetic step on one is
  reduced modulo `256`, as the machine does.
* A `std::vector<unsigned char>` is a `List Nat`; in the run-length codec a
  position `i` of a scan is represented by the suffix `data[i..]` still to be
  read.
* A `double` has two models.  For the claims stated in exact real arithmetic
  it is an exact number of an ordered field `α`, or `none` for a value that is
  not a finite number (NaN or an infinity): `Dbl α`.  For the claims on the
  quantizer as the machine runs it, it is a value of IEEE 754 binary64, every
  operation rounding its exact result to nearest, halfway cases to even:
  `Binary64`.
* Undefined behaviour of the C++ program (a read past the end of a buffer, a
  conversion of a non-representable value to `int`) is the outer `none` of an
  `Option` result.
-/

namespace ImageCompression

/-! ## Run-length encoding -/

/-- The inner `while` of `runLengthEncode` (line 54): starting with the run
length `count` and the unread input `data[i..]`, extend the run while the next
byte equals `current_byte` and `count < 255`.  Returns the final `count` and
the input left unread. -/
def innerLoop (current_byte : Nat) : List Nat → Nat → Nat × List Nat
  | [], count => (count, [])
  | b :: rest, count =>
    if b = current_byte ∧ count < 255 then
      innerLoop current_byte rest ((count + 1) % 256)
    else
      (count, b :: rest)

/-- The outer `while` of `runLengthEncode` (lines 50-60) on the unread input
`data[i..]` with the output written so far.  Every iteration reads at least
one byte, so `fuel = data.size()` iterations always suffice
(see `outerLoop_fuel`). -/
def outerLoop : Nat → List Nat → List Nat → List Nat
  | 0, _, compressed_data => compressed_data
  | _ + 1, [], compressed_data => compressed_data
  | fuel + 1, current_byte :: rest, compressed_data =>
    let r := innerLoop current_byte rest 1
    outerLoop fuel r.2 (compressed_data ++ [r.1, current_byte])

/-- The function `runLengthEncode` of `src/main.cpp`, lines 45-62. -/
def runLengthEncode (data : List Nat) : List Nat :=
  if data.isEmpty then [] else outerLoop data.length data []

/-- The `for` loop over `j` of `runLengthDecode` (lines 72-74): push `byte`
once per iteration; the argument is the number of iterations left,
`count - j`. -/
def pushRun (byte : Nat) : Nat → List Nat → List Nat
  | 0, decompressed_data => decompressed_data
  | n + 1, decompressed_data => pushRun byte n (decompressed_data ++ [byte])

/-- The `for` loop over `i` of `runLengthDecode` (lines 69-75) on the unread
stream `data[i..]`.  When one byte is left, `data[i + 1]` is read past the end
of the vector: undefined behaviour, `none`. -/
def decodeLoop : List Nat → List Nat → Option (List Nat)
  | [], decompressed_data => some decompressed_data
  | [_], _ => none
  | count :: byte :: rest, decompressed_data =>
    decodeLoop rest (pushRun byte count decompressed_data)

/-- The function `runLengthDecode` of `src/main.cpp`, lines 65-77. -/
def runLengthDecode (data : List Nat) : Option (List Nat) :=
  if data.isEmpty then some [] else decodeLoop data []

/-- The count bytes of a stream: the entries at positions 0, 2, 4, ... -/
def countBytes : List Nat → List Nat
  | [] => []
  | [c] => [c]
  | c :: _ :: rest => c :: countBytes rest

/-- The stream made of the pairs `(count, value)` in order. -/
def flattenPairs : List (Nat × Nat) → List Nat
  | [] => []
  | (c, v) :: ps => c :: v :: flattenPairs ps

/-! ## Floating-point values in exact arithmetic

`Dbl α` is the model of a `double` in exact arithmetic: `some x` is the finite
number `x`, taken exactly, and `none` is a value that is not a finite number
(NaN, `+inf` or `-inf`).  On the paths modelled with it a non-finite operand
gives a non-finite result, so the three are not told apart.  The functions of
`<cmath>` whose values are not rational (`cos`, `sqrt`, `log10`) and the
constant `M_PI` are arguments of the definitions that call them; the theorems
instantiate them with the functions of `ℝ`, and the constant with `π` or with
the literal of the source.  The model that rounds as the machine does is
`Binary64`, further down. -/

/-- A `double` of the program, in exact arithmetic. -/
abbrev Dbl (α : Type) := Option α

section Numeric

variable {α : Type} [LinearOrderedField α]

/-! ## PSNR -/

/-- The accumulation loop of `calculatePSNR` (lines 26-29): the first argument
is the number of iterations left, `total_pixels - i`.  A read of
`original[i]` or `compressed[i]` past the end of a buffer is undefined
behaviour, `none`. -/
def mseLoop (original compressed : List Nat) : Nat → Nat → α → Option α
  | 0, _, mse => some mse
  | n + 1, i, mse =>
    match original[i]?, compressed[i]? with
    | some a, some b =>
      let diff : α := (a : α) - (b : α)
      mseLoop original compressed n (i + 1) (mse + diff * diff)
    | _, _ => none

/-- The value of `mse` after `mse /= total_pixels` (line 30).  The sum is
finite; divided by zero it is `0.0 / 0 = NaN` or an infinity. -/
def meanSquaredError (original compressed : List Nat) (total_pixels : Int) :
    Option (Dbl α) :=
  match mseLoop original compressed total_pixels.toNat 0 (0 : α) with
  | none => none
  | some sum => some (if total_pixels = 0 then none else some (sum / (total_pixels : α)))

/-- The function `calculatePSNR` of `src/main.cpp`, lines 22-39.
`total_pixels` is the product of the three dimensions (a `long`; its overflow
is outside the model).  A non-finite `mse` fails the test `mse == 0` and
makes the returned quotient non-finite. -/
def calculatePSNR (log10 : α → α) (original compressed : List Nat)
    (width height channels : Int) : Option (Dbl α) :=
  let total_pixels : Int := width * height * channels
  match meanSquaredError original compressed total_pixels with
  | none => none
  | some none => some none
  | some (some mse) =>
    if mse = 0 then
      some (some 100)
    else
      let max_pixel_value : α := 255
      some (some (10 * log10 (max_pixel_value ^ 2 / mse)))

/-! ## Quantizer -/

variable [FloorRing α]

/-- The function `round` of `<cmath>`: the nearest integer, halfway cases away
from zero. -/
def cround (x : α) : Int :=
  if 0 ≤ x then ⌊x + 1 / 2⌋ else ⌈x - 1 / 2⌉

/-- The function `quantize` of `src/main.cpp`, lines 114-121, in exact
arithmetic: the quotient and the product are not rounded.  It is the reading
of the claims stated in exact real arithmetic; `quantizeBinary64` is the
function in binary64 arithmetic, and `quantizeBinary64_eq_quantize` gives a
range on which the two compute the same numbers.  With `scale = 0` no entry
of the result is a finite number. -/
def quantize (transformed : List (Dbl α)) (quality : Int) : List (Dbl α) :=
  let scale : α := (quality : α)
  transformed.map fun val =>
    match val with
    | none => none
    | some v => if scale = 0 then none else some ((cround (v / scale) : α) * scale)

/-! ## DCT pair -/

/-- The conversion `static_cast<int>` of a `double` (line 106): truncation
toward zero; undefined behaviour, `none`, when the operand is not finite or
the truncated value is not a 32-bit `int`. -/
def castToInt (x : Dbl α) : Option Int :=
  match x with
  | none => none
  | some v =>
    let t : Int := if 0 ≤ v then ⌊v⌋ else ⌈v⌉
    if -2147483648 ≤ t ∧ t ≤ 2147483647 then some t else none

/-- The sum over `k` of `simplifiedIDCT` (lines 101-105) for the sample `n`. -/
def idctSum (cos sqrt : α → α) (pi : α) (transformed : List (Dbl α)) (n : Nat) : Dbl α :=
  let N := transformed.length
  (List.range N).foldl
    (fun (sum : Dbl α) (k : Nat) =>
      let C : α := if k = 0 then sqrt (1 / (N : α)) else sqrt (2 / (N : α))
      match sum, transformed.getD k none with
      | some s, some t => some (s + C * t * cos (pi * ((n : α) + 1 / 2) * (k : α) / (N : α)))
      | _, _ => none)
    (some 0)

/-- Lines 106-108 of `simplifiedIDCT`: convert `sum + 128.0` to `int`, clamp
to `[0, 255]` and store as `unsigned char`. -/
def idctPixel (sum : Dbl α) : Option Nat :=
  match castToInt (sum.map fun s => s + 128) with
  | none => none
  | some pixel_val => some ((max 0 (min 255 pixel_val)).toNat % 256)

/-- The samples in order, or `none` when computing one of them is undefined
behaviour. -/
def collectPixels : List (Option Nat) → Option (List Nat)
  | [] => some []
  | none :: _ => none
  | some p :: rest => (collectPixels rest).map fun ps => p :: ps

/-- The function `simplifiedIDCT` of `src/main.cpp`, lines 97-111. -/
def simplifiedIDCT (cos sqrt : α → α) (pi : α) (transformed : List (Dbl α)) :
    Option (List Nat) :=
  let N := transformed.length
  collectPixels ((List.range N).map fun (n : Nat) => idctPixel (idctSum cos sqrt pi transformed n))

/-- The cosine of the DCT-II basis, as both transforms write it. -/
def dctBasis (cos : α → α) (pi : α) (N n k : Nat) : α :=
  cos (pi * ((n : α) + 1 / 2) * (k : α) / (N : α))

/-- The scale factor of the coefficient `k`, as both transforms write it. -/
def dctScale (sqrt : α → α) (N k : Nat) : α :=
  if k = 0 then sqrt (1 / (N : α)) else sqrt (2 / (N : α))

/-- Truncation toward zero, the value of a `static_cast<int>` that is defined. -/
def truncToInt (v : α) : Int :=
  if 0 ≤ v then ⌊v⌋ else ⌈v⌉

/-- The clamp of line 108 and the store as `unsigned char`. -/
def clampByte (pixel_val : Int) : Nat :=
  (max 0 (min 255 pixel_val)).toNat % 256

/-- The value `reconstructed_float[n]` of the spec: the sum over `k` of
`scale(k) * T[k] * cos(π * (n + 0.5) * k / N)`. -/
def reconstructedFloat (cos sqrt : α → α) (pi : α) (T : List α) (n : Nat) : α :=
  ∑ k in Finset.range T.length,
    dctScale sqrt T.length k * T.getD k 0 * dctBasis cos pi T.length n k

/-- The pixel as the spec words it: `clamp(round_to_int(r + 128.0), 0, 255)`. -/
def roundedPixel (r : α) : Nat :=
  clampByte (cround (r + 128))

/-- The pixel with truncation in the place of rounding:
`clamp(trunc(r + 128.0), 0, 255)`. -/
def truncatedPixel (r : α) : Nat :=
  clampByte (truncToInt (r + 128))

end Numeric

/-! ## Binary64 arithmetic and the quantizer in it -/

/-- A value of the IEEE 754 binary64 format, the `double` of the program: not
a number, an infinity with its sign, or a finite number.  The sign of a zero
is not modelled (`-0.0 == 0.0` in C++). -/
inductive Binary64 where
  | nan : Binary64
  | inf (negative : Bool) : Binary64
  | fin (x : ℚ) : Binary64
deriving DecidableEq

/-- The exponent of the unit in the last place of the binary64 numbers next to
`x`: 52 below the exponent of `x`, and `-1074` in the subnormal range. -/
def ulpExponent (x : ℚ) : Int :=
  max (Int.log 2 |x| - 52) (-1074)

/-- The nearest integer, halfway cases to the even one. -/
def roundHalfEven (m : ℚ) : Int :=
  if m - ⌊m⌋ < 1 / 2 then ⌊m⌋
  else if 1 / 2 < m - ⌊m⌋ then ⌊m⌋ + 1
  else if ⌊m⌋ % 2 = 0 then ⌊m⌋ else ⌊m⌋ + 1

/-- Rounding of an exact result to binary64, to nearest with halfway cases to
even (the default mode): the nearest multiple of the unit in the last place,
or an infinity when that is `2^1024` or more in magnitude. -/
def roundBinary64 (x : ℚ) : Binary64 :=
  let y : ℚ := (roundHalfEven (x / 2 ^ ulpExponent x) : ℚ) * 2 ^ ulpExponent x
  if 2 ^ 1024 ≤ |y| then Binary64.inf (decide (y < 0)) else Binary64.fin y

/-- A rational number that is a binary64 number: rounding leaves it unchanged. -/
def isBinary64 (x : ℚ) : Prop :=
  roundBinary64 x = Binary64.fin x

instance (x : ℚ) : Decidable (isBinary64 x) :=
  inferInstanceAs (Decidable (roundBinary64 x = Binary64.fin x))

/-- The division of binary64.  A zero divisor is `+0.0`, the only zero that the
conversion of an `int` gives. -/
def Binary64.div : Binary64 → Binary64 → Binary64
  | Binary64.nan, _ => Binary64.nan
  | _, Binary64.nan => Binary64.nan
  | Binary64.inf _, Binary64.inf _ => Binary64.nan
  | Binary64.inf s, Binary64.fin y => Binary64.inf (xor s (decide (y < 0)))
  | Binary64.fin _, Binary64.inf _ => Binary64.fin 0
  | Binary64.fin x, Binary64.fin y =>
    if y = 0 then (if x = 0 then Binary64.nan else Binary64.inf (decide (x < 0)))
    else roundBinary64 (x / y)

/-- The function `round` of `<cmath>` on binary64: the nearest integer, halfway
cases away from zero; the result is always a binary64 number. -/
def Binary64.round : Binary64 → Binary64
  | Binary64.nan => Binary64.nan
  | Binary64.inf s => Binary64.inf s
  | Binary64.fin x => Binary64.fin (cround x : ℚ)

/-- The multiplication of binary64. -/
def Binary64.mul : Binary64 → Binary64 → Binary64
  | Binary64.nan, _ => Binary64.nan
  | _, Binary64.nan => Binary64.nan
  | Binary64.inf s, Binary64.inf t => Binary64.inf (xor s t)
  | Binary64.inf s, Binary64.fin y =>
    if y = 0 then Binary64.nan else Binary64.inf (xor s (decide (y < 0)))
  | Binary64.fin x, Binary64.inf t =>
    if x = 0 then Binary64.nan else Binary64.inf (xor (decide (x < 0)) t)
  | Binary64.fin x, Binary64.fin y => roundBinary64 (x * y)

/-- The function `quantize` of `src/main.cpp`, lines 114-121, in binary64
arithmetic: every operation rounds its exact result to binary64.  The
conversion of the 32-bit `quality` to `double` is exact. -/
def quantizeBinary64 (transformed : List Binary64) (quality : Int) : List Binary64 :=
  let scale : Binary64 := Binary64.fin (quality : ℚ)
  transformed.map fun val => Binary64.mul (Binary64.round (Binary64.div val scale)) scale

/-! ## Lemmas on the run-length codec -/

/-- What the inner loop does: it reads `k` further copies of `current_byte`,
adds `k` to the run length and never takes the run length above 255. -/
theorem innerLoop_spec (current_byte : Nat) (rest : List Nat) (count : Nat)
    (hc : count ≤ 255) :
    ∃ k, (innerLoop current_byte rest count).1 = count + k ∧ count + k ≤ 255 ∧
      rest = List.replicate k current_byte ++ (innerLoop current_byte rest count).2 := by
  induction rest generalizing count with
  | nil => exact ⟨0, by simp [innerLoop], by simpa using hc, by simp [innerLoop]⟩
  | cons b tl ih =>
    by_cases h : b = current_byte ∧ count < 255
    · have hmod : (count + 1) % 256 = count + 1 := Nat.mod_eq_of_lt (by omega)
      obtain ⟨k, h1, h2, h3⟩ := ih (count + 1) (by omega)
      refine ⟨k + 1, ?_, ?_, ?_⟩
      · simp only [innerLoop, h, and_self, if_true, hmod, h1]; omega
      · omega
      · obtain ⟨rfl, hlt⟩ := h
        simp only [innerLoop, hlt, and_self, if_true, hmod, List.replicate_succ,
          List.cons_append]
        rw [← h3]
    · exact ⟨0, by simp [innerLoop, h], by simpa using hc, by simp [innerLoop, h]⟩

/-- The inner loop leaves a suffix of its input unread. -/
theorem innerLoop_length (current_byte : Nat) (rest : List Nat) (count : Nat) :
    (innerLoop current_byte rest count).2.length ≤ rest.length := by
  induction rest generalizing count with
  | nil => simp [innerLoop]
  | cons b tl ih =>
    by_cases h : b = current_byte ∧ count < 255
    · simp only [innerLoop, h, and_self, if_true, List.length_cons]
      exact Nat.le_succ_of_le (ih _)
    · simp [innerLoop, h]

/-- The output written so far is only ever appended to. -/
theorem outerLoop_append (fuel : Nat) (rest out : List Nat) :
    outerLoop fuel rest out = out ++ outerLoop fuel rest [] := by
  induction fuel generalizing rest out with
  | zero => simp [outerLoop]
  | succ n ih =>
    cases rest with
    | nil => simp [outerLoop]
    | cons b tl =>
      simp only [outerLoop, List.nil_append]
      rw [ih, ih _ [_, _]]
      simp

/-- One iteration of the outer loop emits one pair. -/
theorem outerLoop_cons (fuel : Nat) (b : Nat) (rest : List Nat) :
    outerLoop (fuel + 1) (b :: rest) [] =
      (innerLoop b rest 1).1 :: b :: outerLoop fuel (innerLoop b rest 1).2 [] := by
  simp only [outerLoop, List.nil_append]
  rw [outerLoop_append]
  simp

/-- The outer loop terminates within `data.size()` iterations: any larger
iteration budget gives the same output. -/
theorem outerLoop_fuel (fuel : Nat) (rest : List Nat) (h : rest.length ≤ fuel) :
    outerLoop fuel rest [] = outerLoop rest.length rest [] := by
  induction fuel using Nat.strong_induction_on generalizing rest with
  | _ fuel ih =>
    cases rest with
    | nil => cases fuel <;> simp [outerLoop]
    | cons b tl =>
      cases fuel with
      | zero => simp at h
      | succ n =>
        have hl := innerLoop_length b tl 1
        simp only [List.length_cons] at h ⊢
        rw [outerLoop_cons, outerLoop_cons,
          ih n (Nat.lt_succ_self n) _ (by omega),
          ih tl.length (by omega) _ hl]

/-- The encoder on a non-empty input: the first pair, then the encoding of
what the first run left unread. -/
theorem runLengthEncode_cons (b : Nat) (rest : List Nat) :
    runLengthEncode (b :: rest) =
      (innerLoop b rest 1).1 :: b :: runLengthEncode (innerLoop b rest 1).2 := by
  have hl := innerLoop_length b rest 1
  have h2 : ∀ l : List Nat, runLengthEncode l = outerLoop l.length l [] := by
    intro l
    cases l <;> simp [runLengthEncode, outerLoop]
  rw [h2, h2, List.length_cons, outerLoop_cons, outerLoop_fuel _ _ hl]

theorem runLengthEncode_nil : runLengthEncode [] = [] := by
  simp [runLengthEncode]

/-- The push loop appends `count` copies of `byte`. -/
theorem pushRun_eq (byte n : Nat) (out : List Nat) :
    pushRun byte n out = out ++ List.replicate n byte := by
  induction n generalizing out with
  | zero => simp [pushRun]
  | succ n ih =>
    simp only [pushRun, ih, List.append_assoc, List.singleton_append]
    rw [← List.replicate_succ]

/-- The decoder only ever appends to what it has written. -/
theorem decodeLoop_append : ∀ (data out : List Nat),
    decodeLoop data out = (decodeLoop data []).map (fun d => out ++ d)
  | [], out => by simp [decodeLoop]
  | [_], out => by simp [decodeLoop]
  | c :: b :: rest, out => by
    simp only [decodeLoop, pushRun_eq, List.nil_append]
    rw [decodeLoop_append rest (out ++ _), decodeLoop_append rest (List.replicate c b)]
    cases decodeLoop rest [] <;> simp

/-- The decoder on a stream that starts with a whole pair. -/
theorem runLengthDecode_cons (c b : Nat) (rest : List Nat) :
    runLengthDecode (c :: b :: rest) =
      (runLengthDecode rest).map (fun d => List.replicate c b ++ d) := by
  have h2 : ∀ l : List Nat, runLengthDecode l = decodeLoop l [] := by
    intro l
    cases l <;> simp [runLengthDecode, decodeLoop]
  rw [h2, h2]
  simp only [decodeLoop, pushRun_eq, List.nil_append]
  rw [decodeLoop_append]

/-- Induction principle following the runs of the input: to prove `P` of a
non-empty input it is enough to have it for what the first run leaves unread. -/
theorem run_induction (P : List Nat → Prop) (h0 : P [])
    (hstep : ∀ b rest, P (innerLoop b rest 1).2 → P (b :: rest)) :
    ∀ data, P data := by
  have key : ∀ n (data : List Nat), data.length ≤ n → P data := by
    intro n
    induction n with
    | zero =>
      intro data hd
      cases data with
      | nil => exact h0
      | cons b rest => simp at hd
    | succ n ih =>
      intro data hd
      cases data with
      | nil => exact h0
      | cons b rest =>
        have hl := innerLoop_length b rest 1
        simp only [List.length_cons] at hd
        exact hstep b rest (ih _ (by omega))
  exact fun data => key data.length data (Nat.le_refl _)

theorem countBytes_getElem? : ∀ (l : List Nat) (i : Nat), (countBytes l)[i]? = l[2 * i]?
  | [], i => by simp [countBytes]
  | [c], i => by
    cases i with
    | zero => simp [countBytes]
    | succ j =>
      have : 2 * (j + 1) = 2 * j + 1 + 1 := by ring
      simp [countBytes, this]
  | c :: b :: rest, i => by
    cases i with
    | zero => simp [countBytes]
    | succ j =>
      have : 2 * (j + 1) = 2 * j + 1 + 1 := by ring
      simp [countBytes, this, countBytes_getElem? rest j]

/-- The inner loop on a uniform input: the run grows until the input ends or
the run length is 255. -/
theorem innerLoop_replicate (v m count : Nat) (hc : count ≤ 255) :
    innerLoop v (List.replicate m v) count =
      (min (count + m) 255, List.replicate (count + m - min (count + m) 255) v) := by
  induction m generalizing count with
  | zero => simp [innerLoop, Nat.min_eq_left hc]
  | succ m ih =>
    by_cases h : count < 255
    · have hmod : (count + 1) % 256 = count + 1 := Nat.mod_eq_of_lt (by omega)
      simp only [List.replicate_succ, innerLoop, h, and_self, if_true, hmod]
      rw [ih (count + 1) (by omega)]
      have : count + 1 + m = count + (m + 1) := by ring
      rw [this]
    · have hc2 : count = 255 := by omega
      subst hc2
      have h1 : min (255 + (m + 1)) 255 = 255 := by omega
      have h2 : 255 + (m + 1) - 255 = m + 1 := by omega
      simp [List.replicate_succ, innerLoop, h1, h2]

/-- The encoding of `255 * q + r` copies of `v`, for `r < 255`. -/
theorem runLengthEncode_replicate (v q r : Nat) (hr : r < 255) :
    runLengthEncode (List.replicate (255 * q + r) v) =
      flattenPairs (List.replicate q (255, v)) ++ (if 0 < r then [r, v] else []) := by
  induction q with
  | zero =>
    cases r with
    | zero => simp [runLengthEncode, flattenPairs]
    | succ r =>
      have h1 : min (1 + r) 255 = 1 + r := by omega
      simp only [Nat.mul_zero, Nat.zero_add, List.replicate_succ, runLengthEncode_cons,
        innerLoop_replicate v r 1 (by omega), h1, Nat.sub_self, List.replicate_zero,
        runLengthEncode_nil, flattenPairs, List.nil_append, Nat.succ_pos, if_true]
      rw [Nat.add_comm 1 r]
  | succ q ih =>
    have h0 : 255 * (q + 1) + r = (254 + (255 * q + r)) + 1 := by ring
    have h1 : min (1 + (254 + (255 * q + r))) 255 = 255 := by omega
    have h2 : 1 + (254 + (255 * q + r)) - 255 = 255 * q + r := by omega
    rw [h0, List.replicate_succ, runLengthEncode_cons,
      innerLoop_replicate v _ 1 (by omega), h1, h2, ih]
    simp [List.replicate_succ, flattenPairs]

/-! ## Lemmas on the PSNR metric -/

section NumericLemmas

variable {α : Type} [LinearOrderedField α]

/-- The accumulated sum does not depend on the order of the two buffers. -/
theorem mseLoop_comm (A B : List Nat) (n i : Nat) (mse : α) :
    mseLoop A B n i mse = mseLoop B A n i mse := by
  induction n generalizing i mse with
  | zero => simp [mseLoop]
  | succ n ih =>
    simp only [mseLoop]
    cases hA : A[i]? <;> cases hB : B[i]? <;> simp only []
    rw [ih]
    congr 1
    ring

/-- A buffer compared with itself over its first `n + i <= length` samples
accumulates nothing. -/
theorem mseLoop_self (S : List Nat) (n i : Nat) (h : i + n ≤ S.length) :
    mseLoop S S n i (0 : α) = some 0 := by
  induction n generalizing i with
  | zero => simp [mseLoop]
  | succ n ih =>
    have hi : i < S.length := by omega
    simp only [mseLoop, List.getElem?_eq_getElem hi, sub_self, mul_zero, add_zero]
    exact ih (i + 1) (by omega)

/-- A non-empty buffer compared with itself at its declared length scores the
sentinel 100.0. -/
theorem calculatePSNR_self (log10 : α → α) (S : List Nat) (width height channels : Int)
    (hlen : width * height * channels = S.length) (hne : S ≠ []) :
    calculatePSNR log10 S S width height channels = some (some 100) := by
  have hpos : 0 < S.length := List.length_pos.mpr hne
  have h0 : (S.length : Int) ≠ 0 := by omega
  simp only [calculatePSNR, meanSquaredError, hlen, Int.toNat_ofNat,
    mseLoop_self S S.length 0 (by omega), h0, if_false, zero_div, if_true]

/-! ## Lemmas on the quantizer -/

variable [FloorRing α]

/-- Rounding an integer returns it. -/
theorem cround_intCast (k : Int) : cround (k : α) = k := by
  unfold cround
  split
  · rw [Int.floor_eq_iff]
    constructor <;> linarith
  · rw [Int.ceil_eq_iff]
    constructor <;> linarith

/-- Rounding moves a number by at most one half. -/
theorem cround_abs_sub_le (x : α) : |(cround x : α) - x| ≤ 1 / 2 := by
  unfold cround
  rw [abs_le]
  split
  · have h1 := Int.floor_le (x + 1 / 2)
    have h2 := Int.lt_floor_add_one (x + 1 / 2)
    constructor <;> linarith
  · have h1 := Int.le_ceil (x - 1 / 2)
    have h2 := Int.ceil_lt_add_one (x - 1 / 2)
    constructor <;> linarith

/-- A halfway case is rounded away from zero. -/
theorem cround_tie (x : α) (h : |(cround x : α) - x| = 1 / 2) :
    |(cround x : α)| = |x| + 1 / 2 := by
  unfold cround at h ⊢
  split at h
  · rename_i hx
    have h2 := Int.lt_floor_add_one (x + 1 / 2)
    rw [if_pos hx]
    rcases abs_eq (by norm_num : (0 : α) ≤ 1 / 2) |>.mp h with h3 | h3
    · rw [abs_of_nonneg hx, abs_of_nonneg (by linarith)]
      linarith
    · linarith
  · rename_i hx
    have hx2 : x < 0 := not_le.mp hx
    have h1 := Int.le_ceil (x - 1 / 2)
    have h2 := Int.ceil_lt_add_one (x - 1 / 2)
    rw [if_neg hx]
    rcases abs_eq (by norm_num : (0 : α) ≤ 1 / 2) |>.mp h with h3 | h3
    · linarith
    · rw [abs_of_neg hx2, abs_of_neg (by linarith)]
      linarith

end NumericLemmas

/-! ## Lemmas on the DCT pair -/

section TransformLemmas
variable {α : Type} [LinearOrderedField α]

/-- An accumulation loop over finite summands stays finite. -/
theorem foldl_range_finite (g : Nat → Dbl α) (t : Nat → α) (h : Nat → α → α) (N : Nat)
    (hg : ∀ k, k < N → g k = some (t k)) :
    (List.range N).foldl
      (fun sum k => match sum, g k with
        | some s, some c => some (s + h k c)
        | _, _ => none) (some 0) = some (∑ k in Finset.range N, h k (t k)) := by
  induction N with
  | zero => simp
  | succ N ih =>
    rw [List.range_succ, List.foldl_append, ih (fun k hk => hg k (Nat.lt_succ_of_lt hk))]
    simp [hg N (Nat.lt_succ_self N), Finset.sum_range_succ]

/-- The inverse sum over finite coefficients, as a finite sum. -/
theorem idctSum_finite (cos sqrt : α → α) (pi : α) (ts : List α) (n : Nat) :
    idctSum cos sqrt pi (ts.map some) n =
      some (∑ k in Finset.range ts.length,
        dctScale sqrt ts.length k * ts.getD k 0 * dctBasis cos pi ts.length n k) := by
  simp only [idctSum, List.length_map]
  exact foldl_range_finite (fun k => (ts.map some).getD k none) (fun k => ts.getD k 0)
    (fun k c => dctScale sqrt ts.length k * c * dctBasis cos pi ts.length n k) ts.length
    (by
      intro k hk
      simp [List.getD_eq_getElem?_getD, List.getElem?_map, List.getElem?_eq_getElem hk])

/-- Samples that are all defined are collected unchanged. -/
theorem collectPixels_map_some (l : List Nat) : collectPixels (l.map some) = some l := by
  induction l with
  | nil => rfl
  | cons a l ih => simp [collectPixels, ih]

variable [FloorRing α]

end TransformLemmas


/-- C1. RLE round trip: decoding the encoding of any byte sequence `S` (the
empty one, a single byte, uniform runs longer than 255 included) returns `S`;
in particular the decoder reads nothing out of bounds on it. -/
theorem rle_round_trip (S : List Nat) :
    runLengthDecode (runLengthEncode S) = some S := by
  refine run_induction (fun data => runLengthDecode (runLengthEncode data) = some data)
    (by simp [runLengthEncode, runLengthDecode]) ?_ S
  intro b rest ih
  obtain ⟨k, h1, _, h3⟩ := innerLoop_spec b rest 1 (by omega)
  show runLengthDecode (runLengthEncode (b :: rest)) = some (b :: rest)
  rw [runLengthEncode_cons, runLengthDecode_cons, ih, h1, Option.map_some']
  have h4 : List.replicate (1 + k) b ++ (innerLoop b rest 1).2 = b :: rest := by
    conv_rhs => rw [h3]
    rw [Nat.add_comm 1 k, List.replicate_succ, List.cons_append]
  rw [h4]

/-- C2. RLE run-length bound: every byte at an even position `2 * i` of an
encoded stream is a count between 1 and 255. -/
theorem rle_count_bound (S : List Nat) (i c : Nat)
    (h : (runLengthEncode S)[2 * i]? = some c) : 1 ≤ c ∧ c ≤ 255 := by
  revert i c
  refine run_induction
    (fun data => ∀ i c, (runLengthEncode data)[2 * i]? = some c → 1 ≤ c ∧ c ≤ 255)
    (by simp [runLengthEncode]) ?_ S
  intro b rest ih i c h
  obtain ⟨k, h1, h2, _⟩ := innerLoop_spec b rest 1 (by omega)
  rw [runLengthEncode_cons] at h
  cases i with
  | zero =>
    simp only [Nat.mul_zero, List.getElem?_cons_zero, Option.some.injEq] at h
    omega
  | succ j =>
    have hj : 2 * (j + 1) = 2 * j + 1 + 1 := by ring
    rw [hj, List.getElem?_cons_succ, List.getElem?_cons_succ] at h
    exact ih j c h

/-- C3. Stream invariant: the count bytes of an encoded stream add up to the
length of the input. -/
theorem rle_count_sum (S : List Nat) :
    (countBytes (runLengthEncode S)).sum = S.length := by
  refine run_induction (fun data => (countBytes (runLengthEncode data)).sum = data.length)
    (by simp [runLengthEncode, countBytes]) ?_ S
  intro b rest ih
  obtain ⟨k, h1, _, h3⟩ := innerLoop_spec b rest 1 (by omega)
  show (countBytes (runLengthEncode (b :: rest))).sum = (b :: rest).length
  have h4 : rest.length = k + (innerLoop b rest 1).2.length := by
    conv_lhs => rw [h3]
    simp
  rw [runLengthEncode_cons, countBytes, List.sum_cons, ih, h1, List.length_cons, h4]
  omega

/-- C4. Long runs are split: `n = 255 * q + r >= 1` copies of `v`, with
`r < 255`, encode as `q` pairs `(255, v)` followed by the pair `(r, v)` when
`r > 0`; and 300 copies of `v` encode as `[255, v, 45, v]`. -/
theorem rle_long_run_split :
    (∀ v n q r : Nat, 1 ≤ n → n = 255 * q + r → r < 255 →
      runLengthEncode (List.replicate n v) =
        flattenPairs (List.replicate q (255, v)) ++ (if 0 < r then [r, v] else [])) ∧
    (∀ v : Nat, runLengthEncode (List.replicate 300 v) = [255, v, 45, v]) := by
  refine ⟨?_, ?_⟩
  · intro v n q r _ hn hr
    rw [hn]
    exact runLengthEncode_replicate v q r hr
  · intro v
    have h := runLengthEncode_replicate v 1 45 (by omega)
    have e : (255 * 1 + 45 : Nat) = 300 := by norm_num
    rw [e] at h
    rw [h]
    rfl

/-- C4 at 300 copies of the byte 7: one full pair and the remainder 45. -/
theorem rle_long_run_split_witness :
    1 ≤ 300 ∧ 300 = 255 * 1 + 45 ∧ 45 < 255 ∧
      runLengthEncode (List.replicate 300 7) =
        flattenPairs (List.replicate 1 (255, 7)) ++ (if 0 < 45 then [45, 7] else []) :=
  ⟨by decide, by decide, by decide,
    rle_long_run_split.1 7 300 1 45 (by decide) (by decide) (by decide)⟩

/-- C2 on the stream of `[10, 10, 10, 200]`: its second count byte is 1. -/
theorem rle_count_bound_witness :
    (runLengthEncode [10, 10, 10, 200])[2 * 1]? = some 1 ∧ 1 ≤ 1 ∧ 1 ≤ 255 :=
  ⟨by decide, rle_count_bound [10, 10, 10, 200] 1 1 (by decide)⟩

/-! ## The claims on the PSNR metric, and the quantizer in exact arithmetic -/

section NumericClaims

variable {α : Type} [LinearOrderedField α]

/-- C5. End-to-end scenario: `[10, 10, 10, 200]` encodes to `[3, 10, 1, 200]`,
which decodes back to `[10, 10, 10, 200]`, and the PSNR of that 2x2 one-channel
image against itself is 100.0. -/
theorem end_to_end_scenario (log10 : α → α) :
    runLengthEncode [10, 10, 10, 200] = [3, 10, 1, 200] ∧
    runLengthDecode [3, 10, 1, 200] = some [10, 10, 10, 200] ∧
    calculatePSNR log10 [10, 10, 10, 200] [10, 10, 10, 200] 2 2 1 = some (some 100) := by
  refine ⟨by decide, by decide, ?_⟩
  simp [calculatePSNR, meanSquaredError, mseLoop]

/-- C6 at the empty buffer: with `width * height * channels = 0` the mean is
`0.0 / 0`, not a number, the test `mse == 0` fails and the value returned is
not a number either, where the claim says 100.0. -/
theorem psnr_identity_empty (log10 : α → α) :
    calculatePSNR log10 [] [] 0 0 0 = some none ∧
    calculatePSNR log10 [] [] 0 0 0 ≠ some (some 100) := by
  simp [calculatePSNR, meanSquaredError, mseLoop]

/-- C7. PSNR symmetry: on two buffers of the same length the metric does not
depend on which one is called the original. -/
theorem psnr_symmetry (log10 : α → α) (A B : List Nat) (width height channels : Int)
    (_hlen : A.length = B.length) :
    calculatePSNR log10 A B width height channels =
      calculatePSNR log10 B A width height channels := by
  simp only [calculatePSNR, meanSquaredError, mseLoop_comm A B]

/-- C7 on two 2x1 one-channel images. -/
theorem psnr_symmetry_witness :
    [1, 5].length = [2, 3].length ∧
      calculatePSNR (fun x : ℚ => x) [1, 5] [2, 3] 2 1 1 =
        calculatePSNR (fun x : ℚ => x) [2, 3] [1, 5] 2 1 1 :=
  ⟨by decide, psnr_symmetry (fun x : ℚ => x) [1, 5] [2, 3] 2 1 1 (by decide)⟩

variable [FloorRing α]

/-- In exact arithmetic, for a quality factor `q >= 1`, quantizing a quantized
sequence changes nothing. -/
theorem quantize_idempotent (X : List (Dbl α)) (q : Int) (hq : 1 ≤ q) :
    quantize (quantize X q) q = quantize X q := by
  have hq0 : (q : α) ≠ 0 := by
    have : (0 : Int) < q := by omega
    exact_mod_cast this.ne.symm
  simp only [quantize, List.map_map]
  apply List.map_congr_left
  intro val _
  cases val with
  | none => rfl
  | some v =>
    simp only [Function.comp, hq0, if_false, mul_div_assoc, div_self hq0, mul_one, ne_eq,
      not_false_eq_true, cround_intCast]

/-- In exact arithmetic, for `q >= 1`, the output has the length of the input,
and where the input holds the number `v` the output holds `k * q` for an
integer `k`, at most `q / 2` away from `v`, and further from zero than `v`
when exactly `q / 2` away. -/
theorem quantize_nearest_multiple (X : List (Dbl α)) (q : Int) (hq : 1 ≤ q) :
    (quantize X q).length = X.length ∧
    ∀ (i : Nat) (v : α), X[i]? = some (some v) →
      ∃ k : Int, (quantize X q)[i]? = some (some ((k : α) * (q : α))) ∧
        |(k : α) * (q : α) - v| ≤ (q : α) / 2 ∧
        (|(k : α) * (q : α) - v| = (q : α) / 2 → |v| < |(k : α) * (q : α)|) := by
  have hqpos : (0 : α) < (q : α) := by
    have : (0 : Int) < q := by omega
    exact_mod_cast this
  have hq0 : (q : α) ≠ 0 := hqpos.ne.symm
  refine ⟨by simp [quantize], ?_⟩
  intro i v hv
  have hdiff : (cround (v / (q : α)) : α) * (q : α) - v =
      ((cround (v / (q : α)) : α) - v / (q : α)) * (q : α) := by
    field_simp
  refine ⟨cround (v / (q : α)), ?_, ?_, ?_⟩
  · simp [quantize, List.getElem?_map, hv, hq0]
  · rw [hdiff, abs_mul, abs_of_pos hqpos]
    have := cround_abs_sub_le (v / (q : α))
    calc |(cround (v / (q : α)) : α) - v / (q : α)| * (q : α)
        ≤ 1 / 2 * (q : α) := mul_le_mul_of_nonneg_right this hqpos.le
      _ = (q : α) / 2 := by ring
  · intro htie
    rw [hdiff, abs_mul, abs_of_pos hqpos] at htie
    have h2 : |(cround (v / (q : α)) : α) - v / (q : α)| = 1 / 2 := by
      have h4 : |(cround (v / (q : α)) : α) - v / (q : α)| * (q : α) = 1 / 2 * (q : α) := by
        rw [htie]
        ring
      exact mul_right_cancel₀ hq0 h4
    have h3 := cround_tie (v / (q : α)) h2
    rw [abs_mul, h3, abs_div, abs_of_pos hqpos, add_mul, div_mul_cancel₀ _ hq0]
    linarith

end NumericClaims

/-! ## The claims on the DCT pair -/

/-- The inner loop stops before a byte equal to `current_byte` only when the
run length has reached 255. -/
theorem innerLoop_maximal (current_byte : Nat) (rest : List Nat) (count : Nat)
    (hc : count ≤ 255) (b : Nat) (tl : List Nat)
    (h : (innerLoop current_byte rest count).2 = b :: tl) (hb : b = current_byte) :
    (innerLoop current_byte rest count).1 = 255 := by
  induction rest generalizing count with
  | nil => simp [innerLoop] at h
  | cons a as ih =>
    by_cases hcond : a = current_byte ∧ count < 255
    · have hmod : (count + 1) % 256 = count + 1 := Nat.mod_eq_of_lt (by omega)
      simp only [innerLoop, hcond, and_self, if_true, hmod] at h ⊢
      exact ih (count + 1) (by omega) h
    · simp only [innerLoop, hcond, if_false] at h ⊢
      simp only [List.cons.injEq] at h
      have ha : a = current_byte := by rw [h.1, hb]
      have : ¬ count < 255 := fun hlt => hcond ⟨ha, hlt⟩
      omega

/-- The inner loop on a run of `k` copies followed by input that ends the run:
it reads exactly the `k` copies. -/
theorem innerLoop_run (v k count : Nat) (rest : List Nat) (hk : count + k ≤ 255)
    (hend : ∀ b tl, rest = b :: tl → b = v → count + k = 255) :
    innerLoop v (List.replicate k v ++ rest) count = (count + k, rest) := by
  induction k generalizing count with
  | zero =>
    cases rest with
    | nil => simp [innerLoop]
    | cons b tl =>
      have hcond : ¬ (b = v ∧ count < 255) := by
        rintro ⟨hb, hlt⟩
        have := hend b tl rfl hb
        omega
      simp [innerLoop, hcond]
  | succ k ih =>
    have hmod : (count + 1) % 256 = count + 1 := Nat.mod_eq_of_lt (by omega)
    have hlt : count < 255 := by omega
    rw [List.replicate_succ, List.cons_append]
    simp only [innerLoop, hlt, and_self, if_true, hmod]
    rw [ih (count + 1) (by omega) (fun b tl h1 h2 => by have := hend b tl h1 h2; omega)]
    congr 1
    omega

/-- The decoder reads past the end of the stream exactly on the streams of odd
length. -/
theorem runLengthDecode_eq_none_iff : ∀ (T : List Nat),
    runLengthDecode T = none ↔ T.length % 2 = 1
  | [] => by simp [runLengthDecode]
  | [_] => by simp [runLengthDecode, decodeLoop]
  | c :: b :: rest => by
    rw [runLengthDecode_cons, Option.map_eq_none', runLengthDecode_eq_none_iff rest]
    simp only [List.length_cons]
    omega

/-- The encoder emits whole pairs. -/
theorem runLengthEncode_length_even (S : List Nat) : (runLengthEncode S).length % 2 = 0 := by
  refine run_induction (fun data => (runLengthEncode data).length % 2 = 0)
    (by simp [runLengthEncode]) ?_ S
  intro b rest ih
  show (runLengthEncode (b :: rest)).length % 2 = 0
  rw [runLengthEncode_cons]
  simp only [List.length_cons]
  omega

/-- C15. Runs are maximal: when two consecutive pairs of an encoded stream
carry the same value, the first of them has the count 255. -/
theorem rle_runs_maximal (S : List Nat) (i c1 v1 c2 v2 : Nat)
    (h1 : (runLengthEncode S)[2 * i]? = some c1)
    (h2 : (runLengthEncode S)[2 * i + 1]? = some v1)
    (h3 : (runLengthEncode S)[2 * i + 2]? = some c2)
    (h4 : (runLengthEncode S)[2 * i + 3]? = some v2)
    (hv : v1 = v2) : c1 = 255 := by
  revert i c1 v1 c2 v2
  refine run_induction
    (fun data => ∀ i c1 v1 c2 v2, (runLengthEncode data)[2 * i]? = some c1 →
      (runLengthEncode data)[2 * i + 1]? = some v1 →
      (runLengthEncode data)[2 * i + 2]? = some c2 →
      (runLengthEncode data)[2 * i + 3]? = some v2 → v1 = v2 → c1 = 255)
    (by simp [runLengthEncode]) ?_ S
  intro b rest ih i c1 v1 c2 v2 h1 h2 h3 h4 hv
  rw [runLengthEncode_cons] at h1 h2 h3 h4
  cases i with
  | zero =>
    simp only [Nat.mul_zero, Nat.zero_add, List.getElem?_cons_zero, List.getElem?_cons_succ,
      Option.some.injEq] at h1 h2 h3 h4
    cases hr : (innerLoop b rest 1).2 with
    | nil => rw [hr, runLengthEncode_nil] at h3; simp at h3
    | cons b2 tl =>
      rw [hr, runLengthEncode_cons] at h4
      simp only [List.getElem?_cons_succ, List.getElem?_cons_zero, Option.some.injEq] at h4
      rw [← h1]
      exact innerLoop_maximal b rest 1 (by omega) b2 tl hr (by rw [h4, ← hv, h2])
  | succ j =>
    have e0 : 2 * (j + 1) = 2 * j + 1 + 1 := by ring
    have e1 : 2 * (j + 1) + 1 = (2 * j + 1) + 1 + 1 := by ring
    have e2 : 2 * (j + 1) + 2 = (2 * j + 2) + 1 + 1 := by ring
    have e3 : 2 * (j + 1) + 3 = (2 * j + 3) + 1 + 1 := by ring
    rw [e0, List.getElem?_cons_succ, List.getElem?_cons_succ] at h1
    rw [e1, List.getElem?_cons_succ, List.getElem?_cons_succ] at h2
    rw [e2, List.getElem?_cons_succ, List.getElem?_cons_succ] at h3
    rw [e3, List.getElem?_cons_succ, List.getElem?_cons_succ] at h4
    exact ih j c1 v1 c2 v2 h1 h2 h3 h4 hv

/-- C15 on the encoding of 300 copies of 7 followed by a 9. -/
theorem rle_runs_maximal_witness :
    (runLengthEncode (List.replicate 300 7 ++ [9]))[2 * 0]? = some 255 ∧
    (runLengthEncode (List.replicate 300 7 ++ [9]))[2 * 0 + 1]? = some 7 ∧
    (runLengthEncode (List.replicate 300 7 ++ [9]))[2 * 0 + 2]? = some 45 ∧
    (runLengthEncode (List.replicate 300 7 ++ [9]))[2 * 0 + 3]? = some 7 ∧
    (7 : Nat) = 7 ∧ (255 : Nat) = 255 := by
  have e : runLengthEncode (List.replicate 300 7 ++ [9]) = [255, 7, 45, 7, 1, 9] := by
    have h254 : List.replicate 300 7 ++ [9] = 7 :: (List.replicate 254 7 ++ (List.replicate 45 7 ++ [9])) := by
      rw [← List.append_assoc, ← List.replicate_add]
      rfl
    have h44 : List.replicate 45 7 ++ [9] = 7 :: (List.replicate 44 7 ++ [9]) := rfl
    rw [h254, runLengthEncode_cons, innerLoop_run 7 254 1 _ (by omega) (fun _ _ _ _ => rfl), h44,
      runLengthEncode_cons, innerLoop_run 7 44 1 _ (by omega) (by simp)]
    rfl
  have h1 : (runLengthEncode (List.replicate 300 7 ++ [9]))[2 * 0]? = some 255 := by rw [e]; rfl
  have h2 : (runLengthEncode (List.replicate 300 7 ++ [9]))[2 * 0 + 1]? = some 7 := by rw [e]; rfl
  have h3 : (runLengthEncode (List.replicate 300 7 ++ [9]))[2 * 0 + 2]? = some 45 := by rw [e]; rfl
  have h4 : (runLengthEncode (List.replicate 300 7 ++ [9]))[2 * 0 + 3]? = some 7 := by rw [e]; rfl
  exact ⟨h1, h2, h3, h4, rfl, rle_runs_maximal _ 0 255 7 45 7 h1 h2 h3 h4 rfl⟩

/-- C16. Encoder output is always decodable in bounds: an encoded stream has
even length, and the decoder applied to it never takes the branch that reads
`data[i + 1]` past the end. -/
theorem rle_output_decodable (S : List Nat) :
    (runLengthEncode S).length % 2 = 0 ∧ runLengthDecode (runLengthEncode S) ≠ none := by
  have he := runLengthEncode_length_even S
  refine ⟨he, ?_⟩
  rw [Ne, runLengthDecode_eq_none_iff]
  omega

/-- C19. Worst-case expansion bound: an encoded stream is at most twice as
long as the input. -/
theorem rle_expansion_bound (S : List Nat) : (runLengthEncode S).length ≤ 2 * S.length := by
  refine run_induction (fun data => (runLengthEncode data).length ≤ 2 * data.length)
    (by simp [runLengthEncode]) ?_ S
  intro b rest ih
  have hl := innerLoop_length b rest 1
  show (runLengthEncode (b :: rest)).length ≤ 2 * (b :: rest).length
  rw [runLengthEncode_cons]
  simp only [List.length_cons]
  omega

/-- Decoding a canonical stream and encoding the result returns the stream;
the decoded sequence starts with the value of the first pair. -/
theorem encode_decode_canonical_aux : ∀ (T : List Nat), T.length % 2 = 0 →
    (∀ i c, T[2 * i]? = some c → 1 ≤ c ∧ c ≤ 255) →
    (∀ i c1 v1 c2 v2, T[2 * i]? = some c1 → T[2 * i + 1]? = some v1 →
      T[2 * i + 2]? = some c2 → T[2 * i + 3]? = some v2 → v1 = v2 → c1 = 255) →
    ∃ D, runLengthDecode T = some D ∧ runLengthEncode D = T ∧
      ∀ c v rest, T = c :: v :: rest → ∃ D2, D = v :: D2
  | [], _, _, _ => ⟨[], by simp [runLengthDecode], by simp [runLengthEncode], by simp⟩
  | [_], h, _, _ => by simp at h
  | c :: v :: rest, heven, hcount, hmax => by
    have hrest_even : rest.length % 2 = 0 := by
      simp only [List.length_cons] at heven
      omega
    have hrest_count : ∀ i c2, rest[2 * i]? = some c2 → 1 ≤ c2 ∧ c2 ≤ 255 := by
      intro i c2 h
      apply hcount (i + 1) c2
      have e : 2 * (i + 1) = 2 * i + 1 + 1 := by ring
      rw [e, List.getElem?_cons_succ, List.getElem?_cons_succ]
      exact h
    have hrest_max : ∀ i c1 v1 c2 v2, rest[2 * i]? = some c1 → rest[2 * i + 1]? = some v1 →
        rest[2 * i + 2]? = some c2 → rest[2 * i + 3]? = some v2 → v1 = v2 → c1 = 255 := by
      intro i c1 v1 c2 v2 h1 h2 h3 h4 hv
      apply hmax (i + 1) c1 v1 c2 v2 _ _ _ _ hv
      · have e : 2 * (i + 1) = 2 * i + 1 + 1 := by ring
        rw [e, List.getElem?_cons_succ, List.getElem?_cons_succ]; exact h1
      · have e : 2 * (i + 1) + 1 = (2 * i + 1) + 1 + 1 := by ring
        rw [e, List.getElem?_cons_succ, List.getElem?_cons_succ]; exact h2
      · have e : 2 * (i + 1) + 2 = (2 * i + 2) + 1 + 1 := by ring
        rw [e, List.getElem?_cons_succ, List.getElem?_cons_succ]; exact h3
      · have e : 2 * (i + 1) + 3 = (2 * i + 3) + 1 + 1 := by ring
        rw [e, List.getElem?_cons_succ, List.getElem?_cons_succ]; exact h4
    obtain ⟨D, hdec, henc, hhead⟩ :=
      encode_decode_canonical_aux rest hrest_even hrest_count hrest_max
    have hc : 1 ≤ c ∧ c ≤ 255 := hcount 0 c (by simp)
    obtain ⟨k, rfl⟩ : ∃ k, c = k + 1 := ⟨c - 1, by omega⟩
    refine ⟨List.replicate (k + 1) v ++ D, ?_, ?_, ?_⟩
    · rw [runLengthDecode_cons, hdec, Option.map_some']
    · have hend : ∀ b tl, D = b :: tl → b = v → 1 + k = 255 := by
        intro b tl hD hb
        cases rest with
        | nil =>
          simp [runLengthDecode] at hdec
          rw [hdec] at hD
          simp at hD
        | cons c2 rest2 =>
          cases rest2 with
          | nil => simp at hrest_even
          | cons v2 rest3 =>
            obtain ⟨D2, hD2⟩ := hhead c2 v2 rest3 rfl
            rw [hD2] at hD
            simp only [List.cons.injEq] at hD
            have := hmax 0 (k + 1) v c2 v2 (by simp) (by simp) (by simp) (by simp)
              (by rw [hD.1, hb])
            omega
      rw [List.replicate_succ, List.cons_append, runLengthEncode_cons,
        innerLoop_run v k 1 D (by omega) hend, henc]
      simp only [Nat.add_comm 1 k]
    · intro c' v' rest' h
      simp only [List.cons.injEq] at h
      exact ⟨List.replicate k v ++ D, by rw [List.replicate_succ, List.cons_append, h.2.1]⟩

/-- C17. Encode is a right inverse on canonical streams: a stream of even
length, with every count in 1..255 and the count 255 wherever the next pair
carries the same value, decodes to a sequence whose encoding is the stream. -/
theorem rle_encode_decode_canonical (T : List Nat) (heven : T.length % 2 = 0)
    (hcount : ∀ i c, T[2 * i]? = some c → 1 ≤ c ∧ c ≤ 255)
    (hmax : ∀ i c1 v1 c2 v2, T[2 * i]? = some c1 → T[2 * i + 1]? = some v1 →
      T[2 * i + 2]? = some c2 → T[2 * i + 3]? = some v2 → v1 = v2 → c1 = 255) :
    ∃ D, runLengthDecode T = some D ∧ runLengthEncode D = T := by
  obtain ⟨D, h1, h2, _⟩ := encode_decode_canonical_aux T heven hcount hmax
  exact ⟨D, h1, h2⟩

/-- C17 on the stream `[255, 7, 45, 7]`, whose two pairs carry the same value. -/
theorem rle_encode_decode_canonical_witness :
    [255, 7, 45, 7].length % 2 = 0 ∧
    (∀ i c, [255, 7, 45, 7][2 * i]? = some c → 1 ≤ c ∧ c ≤ 255) ∧
    (∀ i c1 v1 c2 v2, [255, 7, 45, 7][2 * i]? = some c1 → [255, 7, 45, 7][2 * i + 1]? = some v1 →
      [255, 7, 45, 7][2 * i + 2]? = some c2 → [255, 7, 45, 7][2 * i + 3]? = some v2 →
      v1 = v2 → c1 = 255) ∧
    ∃ D, runLengthDecode [255, 7, 45, 7] = some D ∧ runLengthEncode D = [255, 7, 45, 7] := by
  have h1 : [255, 7, 45, 7].length % 2 = 0 := by decide
  have h2 : ∀ i c, [255, 7, 45, 7][2 * i]? = some c → 1 ≤ c ∧ c ≤ 255 := by
    intro i c h
    rcases i with _ | _ | i
    · simp at h; omega
    · simp at h; omega
    · rw [List.getElem?_eq_none (by simp only [List.length_cons, List.length_nil]; omega)] at h
      simp at h
  have h3 : ∀ i c1 v1 c2 v2, [255, 7, 45, 7][2 * i]? = some c1 →
      [255, 7, 45, 7][2 * i + 1]? = some v1 → [255, 7, 45, 7][2 * i + 2]? = some c2 →
      [255, 7, 45, 7][2 * i + 3]? = some v2 → v1 = v2 → c1 = 255 := by
    intro i c1 v1 c2 v2 a1 _ a3 _ _
    rcases i with _ | i
    · simp at a1; omega
    · rw [List.getElem?_eq_none (by simp only [List.length_cons, List.length_nil]; omega)] at a3
      simp at a3
  exact ⟨h1, h2, h3, rle_encode_decode_canonical [255, 7, 45, 7] h1 h2 h3⟩

/-- C14 on the streams `[3]` and `[2, 7, 1]`: the decoder reads `data[i + 1]`
past the end of the stream, where the claim has an explicit error. -/
theorem rle_decode_odd_stream :
    runLengthDecode [3] = none ∧ runLengthDecode [2, 7, 1] = none := by
  decide

/-! ## Further lemmas and claims on the PSNR metric, the quantizer and the inverse transform -/

section MetricLemmas
variable {α : Type} [LinearOrderedField α]

/-- The accumulation loop over samples that are in bounds, as a finite sum. -/
theorem mseLoop_eq_sum (A B : List Nat) (n i : Nat) (mse : α)
    (hA : i + n ≤ A.length) (hB : i + n ≤ B.length) :
    mseLoop A B n i mse = some (mse + ∑ j in Finset.range n,
      ((A.getD (i + j) 0 : α) - (B.getD (i + j) 0 : α)) *
        ((A.getD (i + j) 0 : α) - (B.getD (i + j) 0 : α))) := by
  induction n generalizing i mse with
  | zero => simp [mseLoop]
  | succ n ih =>
    have hi : i < A.length := by omega
    have hi2 : i < B.length := by omega
    simp only [mseLoop, List.getElem?_eq_getElem hi, List.getElem?_eq_getElem hi2]
    rw [ih (i + 1) _ (by omega) (by omega), Finset.sum_range_succ']
    simp only [List.getD_eq_getElem?_getD, List.getElem?_eq_getElem hi,
      List.getElem?_eq_getElem hi2, Option.getD_some, Nat.add_zero]
    congr 1
    rw [add_assoc, add_comm (_ * _) (Finset.sum _ _)]
    congr 2
    apply Finset.sum_congr rfl
    intro j _
    have e : i + 1 + j = i + (j + 1) := by ring
    rw [e]

/-- The mean squared error of two buffers of the declared length `N > 0`. -/
theorem meanSquaredError_eq (A B : List Nat) (hA : 0 < A.length) (hlen : A.length = B.length) :
    meanSquaredError A B (A.length : Int) = some (some
      ((∑ j in Finset.range A.length,
        ((A.getD j 0 : α) - (B.getD j 0 : α)) * ((A.getD j 0 : α) - (B.getD j 0 : α))) /
          (A.length : α))) := by
  have h0 : (A.length : Int) ≠ 0 := by omega
  simp only [meanSquaredError, Int.toNat_ofNat,
    mseLoop_eq_sum A B A.length 0 (0 : α) (by omega) (by omega), h0, if_false, zero_add,
    Int.cast_natCast]

/-- Two buffers of the same length with the same samples are equal. -/
theorem eq_of_getD_eq (A B : List Nat) (hlen : A.length = B.length)
    (h : ∀ j, j < A.length → A.getD j 0 = B.getD j 0) : A = B := by
  apply List.ext_getElem hlen
  intro j h1 h2
  have := h j h1
  simpa [List.getD_eq_getElem?_getD, List.getElem?_eq_getElem h1,
    List.getElem?_eq_getElem h2] using this

end MetricLemmas

section MetricClaims
variable {α : Type} [LinearOrderedField α]

/-- C18. Sentinel only for identical buffers: on two non-empty buffers of the
same, declared, length the mean squared error is a number that is zero
exactly when the buffers are equal; the value returned is then the sentinel
100.0, and `10 * log10(255^2 / mse)` otherwise. -/
theorem psnr_sentinel_iff (log10 : α → α) (A B : List Nat) (width height channels : Int)
    (hne : A ≠ []) (hlen : A.length = B.length)
    (hdim : width * height * channels = A.length) :
    ∃ mse : α, meanSquaredError A B (width * height * channels) = some (some mse) ∧
      (mse = 0 ↔ A = B) ∧
      (A = B → calculatePSNR log10 A B width height channels = some (some 100)) ∧
      (A ≠ B → calculatePSNR log10 A B width height channels =
        some (some (10 * log10 (255 ^ 2 / mse)))) := by
  have hpos : 0 < A.length := List.length_pos.mpr hne
  have hposα : (0 : α) < (A.length : α) := by exact_mod_cast hpos
  have hmse := meanSquaredError_eq (α := α) A B hpos hlen
  have hiff : (∑ j in Finset.range A.length,
      ((A.getD j 0 : α) - (B.getD j 0 : α)) * ((A.getD j 0 : α) - (B.getD j 0 : α))) /
        (A.length : α) = 0 ↔ A = B := by
    rw [div_eq_zero_iff, or_iff_left hposα.ne.symm,
      Finset.sum_eq_zero_iff_of_nonneg (fun j _ => mul_self_nonneg _)]
    constructor
    · intro h
      apply eq_of_getD_eq A B hlen
      intro j hj
      have := h j (Finset.mem_range.mpr hj)
      rw [mul_self_eq_zero, sub_eq_zero] at this
      exact_mod_cast this
    · intro h j _
      rw [h]
      simp
  refine ⟨_, by rw [hdim]; exact hmse, hiff, ?_, ?_⟩
  · intro hAB
    simp only [calculatePSNR, hdim, hmse, hiff.mpr hAB, if_true]
  · intro hAB
    have : ¬ ((∑ j in Finset.range A.length,
      ((A.getD j 0 : α) - (B.getD j 0 : α)) * ((A.getD j 0 : α) - (B.getD j 0 : α))) /
        (A.length : α) = 0) := fun h => hAB (hiff.mp h)
    simp only [calculatePSNR, hdim, hmse, this, if_false]

/-- C18 on two 2x1 one-channel images that differ. -/
theorem psnr_sentinel_iff_witness :
    [1, 5] ≠ ([] : List Nat) ∧ [1, 5].length = [2, 3].length ∧
    (2 : Int) * 1 * 1 = ([1, 5] : List Nat).length ∧
    ∃ mse : ℚ, meanSquaredError [1, 5] [2, 3] (2 * 1 * 1) = some (some mse) ∧
      (mse = 0 ↔ [1, 5] = [2, 3]) ∧
      ([1, 5] = [2, 3] → calculatePSNR (fun x : ℚ => x) [1, 5] [2, 3] 2 1 1 = some (some 100)) ∧
      ([1, 5] ≠ [2, 3] → calculatePSNR (fun x : ℚ => x) [1, 5] [2, 3] 2 1 1 =
        some (some (10 * (fun x : ℚ => x) (255 ^ 2 / mse)))) :=
  ⟨by decide, by decide, by decide,
    psnr_sentinel_iff (fun x : ℚ => x) [1, 5] [2, 3] 2 1 1 (by decide) (by decide) (by decide)⟩

end MetricClaims

section PixelConversion
variable {α : Type} [LinearOrderedField α]

/-- The sum of `simplifiedIDCT` over finite coefficients is the
`reconstructed_float` of the spec. -/
theorem idctSum_eq_reconstructedFloat (cos sqrt : α → α) (pi : α) (T : List α) (n : Nat) :
    idctSum cos sqrt pi (T.map some) n = some (reconstructedFloat cos sqrt pi T n) := by
  rw [idctSum_finite]
  rfl

variable [FloorRing α]

/-- A value strictly between `-2^31 - 1` and `2^31` truncates to an `int`. -/
theorem truncToInt_range (v : α) (h1 : -2147483649 < v) (h2 : v < 2147483648) :
    -2147483648 ≤ truncToInt v ∧ truncToInt v ≤ 2147483647 := by
  unfold truncToInt
  split
  · rename_i h0
    constructor
    · have : (0 : Int) ≤ ⌊v⌋ := Int.floor_nonneg.mpr h0
      omega
    · have : ⌊v⌋ < 2147483648 := Int.floor_lt.mpr (by exact_mod_cast h2)
      omega
  · rename_i h0
    have hneg : v < 0 := not_le.mp h0
    constructor
    · have : (-2147483649 : Int) < ⌈v⌉ := Int.lt_ceil.mpr (by exact_mod_cast h1)
      omega
    · have : ⌈v⌉ ≤ 0 := Int.ceil_le.mpr (by exact_mod_cast hneg.le)
      omega

/-- Lines 106-108 on a finite sum whose truncation is an `int`. -/
theorem idctPixel_finite (s : α)
    (h : -2147483648 ≤ truncToInt (s + 128) ∧ truncToInt (s + 128) ≤ 2147483647) :
    idctPixel (some s) = some (truncatedPixel s) := by
  unfold truncToInt at h
  simp only [idctPixel, castToInt, Option.map_some', h, and_self, if_true, truncatedPixel,
    clampByte, truncToInt]

/-- The inverse transform of finite coefficients whose reconstructed values all
truncate to an `int`: every pixel is defined and is the truncated, clamped
value. -/
theorem simplifiedIDCT_finite (cos sqrt : α → α) (pi : α) (T : List α)
    (hrange : ∀ n, n < T.length →
      -2147483649 < reconstructedFloat cos sqrt pi T n + 128 ∧
      reconstructedFloat cos sqrt pi T n + 128 < 2147483648) :
    simplifiedIDCT cos sqrt pi (T.map some) = some ((List.range T.length).map
      fun n => truncatedPixel (reconstructedFloat cos sqrt pi T n)) := by
  have key : ∀ n ∈ List.range T.length,
      idctPixel (idctSum cos sqrt pi (T.map some) n) =
        some (truncatedPixel (reconstructedFloat cos sqrt pi T n)) := by
    intro n hn
    have hn2 : n < T.length := List.mem_range.mp hn
    rw [idctSum_eq_reconstructedFloat]
    exact idctPixel_finite _ (truncToInt_range _ (hrange n hn2).1 (hrange n hn2).2)
  unfold simplifiedIDCT
  simp only [List.length_map]
  rw [List.map_congr_left key]
  have hmap : (List.range T.length).map
      (fun n => some (truncatedPixel (reconstructedFloat cos sqrt pi T n))) =
      ((List.range T.length).map
        (fun n => truncatedPixel (reconstructedFloat cos sqrt pi T n))).map some := by
    rw [List.map_map]
    rfl
  rw [hmap, collectPixels_map_some]

/-- C12, as amended. Inverse transform truncates then clamps: for finite
coefficients `T` whose reconstructed values `r_n + 128` lie strictly between
`-2^31 - 1` and `2^31`, the inverse transform returns `N` pixels and the `n`-th
is `clamp(trunc(r_n + 128), 0, 255)`, truncated toward zero and not rounded. -/
theorem idct_truncates_then_clamps (cos sqrt : α → α) (pi : α) (T : List α)
    (hrange : ∀ n, n < T.length →
      -2147483649 < reconstructedFloat cos sqrt pi T n + 128 ∧
      reconstructedFloat cos sqrt pi T n + 128 < 2147483648) :
    ∃ R, simplifiedIDCT cos sqrt pi (T.map some) = some R ∧ R.length = T.length ∧
      ∀ n, n < T.length →
        R[n]? = some (truncatedPixel (reconstructedFloat cos sqrt pi T n)) := by
  refine ⟨_, simplifiedIDCT_finite cos sqrt pi T hrange, by simp, ?_⟩
  intro n hn
  simp [List.getElem?_map, List.getElem?_range hn]

end PixelConversion

/-- The reconstructed value of the single coefficient `3/4`, over the reals. -/
theorem reconstructedFloat_single :
    reconstructedFloat Real.cos Real.sqrt Real.pi [3 / 4] 0 = 3 / 4 := by
  simp [reconstructedFloat, dctScale, dctBasis]

/-- Truncation and rounding of `128.75` differ. -/
theorem truncatedPixel_three_quarters :
    truncatedPixel (3 / 4 : ℝ) = 128 ∧ roundedPixel (3 / 4 : ℝ) = 129 := by
  have h1 : ⌊(3 / 4 + 128 : ℝ)⌋ = 128 := by
    rw [Int.floor_eq_iff]; constructor <;> norm_num
  have h2 : ⌊(3 / 4 + 128 + 1 / 2 : ℝ)⌋ = 129 := by
    rw [Int.floor_eq_iff]; constructor <;> norm_num
  have h0 : (0 : ℝ) ≤ 3 / 4 + 128 := by norm_num
  constructor
  · simp only [truncatedPixel, truncToInt, h0, if_true, h1]
    decide
  · simp only [roundedPixel, cround, h0, if_true, h2]
    decide

/-- C12 fails on the code: the single coefficient `3/4` reconstructs to
`128.75`, which `simplifiedIDCT` stores as 128, while
`clamp(round_to_int(128.75), 0, 255)` is 129. -/
theorem idct_rounds_counterexample :
    simplifiedIDCT Real.cos Real.sqrt Real.pi [some (3 / 4)] = some [128] ∧
    roundedPixel (reconstructedFloat Real.cos Real.sqrt Real.pi [3 / 4] 0) = 129 := by
  have hr : ∀ n, n < [(3 / 4 : ℝ)].length →
      -2147483649 < reconstructedFloat Real.cos Real.sqrt Real.pi [3 / 4] n + 128 ∧
      reconstructedFloat Real.cos Real.sqrt Real.pi [3 / 4] n + 128 < 2147483648 := by
    intro n hn
    have : n = 0 := by simpa using hn
    subst this
    rw [reconstructedFloat_single]
    constructor <;> norm_num
  have h := simplifiedIDCT_finite Real.cos Real.sqrt Real.pi [3 / 4] hr
  constructor
  · have e : ([(3 / 4 : ℝ)].map some) = [some (3 / 4)] := rfl
    rw [e] at h
    rw [h, show [(3 / 4 : ℝ)].length = 1 from rfl, show List.range 1 = [0] from rfl,
      List.map_cons, List.map_nil, reconstructedFloat_single, truncatedPixel_three_quarters.1]
  · rw [reconstructedFloat_single, truncatedPixel_three_quarters.2]

/-- C12, as amended, on the single coefficient `3/4`. -/
theorem idct_truncates_then_clamps_witness :
    (∀ n, n < [(3 / 4 : ℝ)].length →
      -2147483649 < reconstructedFloat Real.cos Real.sqrt Real.pi [3 / 4] n + 128 ∧
      reconstructedFloat Real.cos Real.sqrt Real.pi [3 / 4] n + 128 < 2147483648) ∧
    ∃ R, simplifiedIDCT Real.cos Real.sqrt Real.pi ([(3 / 4 : ℝ)].map some) = some R ∧
      R.length = [(3 / 4 : ℝ)].length ∧
      ∀ n, n < [(3 / 4 : ℝ)].length →
        R[n]? = some (truncatedPixel (reconstructedFloat Real.cos Real.sqrt Real.pi [3 / 4] n)) := by
  have hr : ∀ n, n < [(3 / 4 : ℝ)].length →
      -2147483649 < reconstructedFloat Real.cos Real.sqrt Real.pi [3 / 4] n + 128 ∧
      reconstructedFloat Real.cos Real.sqrt Real.pi [3 / 4] n + 128 < 2147483648 := by
    intro n hn
    have : n = 0 := by simpa using hn
    subst this
    rw [reconstructedFloat_single]
    constructor <;> norm_num
  exact ⟨hr, idct_truncates_then_clamps Real.cos Real.sqrt Real.pi [3 / 4] hr⟩

/-! ## The quantized pipeline at quality 1 -/

/-- The quantizer on finite coefficients with a non-zero quality factor. -/
theorem quantize_finite {α : Type} [LinearOrderedField α] [FloorRing α] (ts : List α) (q : Int)
    (hq : (q : α) ≠ 0) :
    quantize (ts.map some) q =
      (ts.map fun v => (cround (v / (q : α)) : α) * (q : α)).map some := by
  simp only [quantize, List.map_map]
  apply List.map_congr_left
  intro v _
  simp [hq]

/-- Rounding an integer to an integer returns it. -/
theorem roundHalfEven_intCast (z : Int) : roundHalfEven (z : ℚ) = z := by
  simp [roundHalfEven]

/-- Rounding to an integer moves a number by at most one half. -/
theorem roundHalfEven_abs_sub_le (m : ℚ) : |(roundHalfEven m : ℚ) - m| ≤ 1 / 2 := by
  have h1 := Int.floor_le m
  have h2 := Int.lt_floor_add_one m
  unfold roundHalfEven
  rw [abs_le]
  split_ifs with a b c
  · constructor <;> linarith
  · push_cast
    constructor <;> linarith
  · constructor <;> linarith
  · push_cast
    constructor <;> linarith

/-- Rounding to an integer keeps the sign of a non-negative number. -/
theorem roundHalfEven_nonneg (m : ℚ) (h : 0 ≤ m) : 0 ≤ roundHalfEven m := by
  have h0 : (0 : Int) ≤ ⌊m⌋ := Int.floor_nonneg.mpr h
  unfold roundHalfEven
  split_ifs <;> omega

/-- Rounding to an integer keeps the sign of a non-positive number. -/
theorem roundHalfEven_nonpos (m : ℚ) (h : m ≤ 0) : roundHalfEven m ≤ 0 := by
  have h1 : ⌊m⌋ ≤ 0 := by
    have := Int.floor_le m
    have h2 : ((⌊m⌋ : Int) : ℚ) ≤ 0 := by linarith
    exact_mod_cast h2
  unfold roundHalfEven
  split_ifs with a b c
  · exact h1
  · have h3 : ((⌊m⌋ : Int) : ℚ) < 0 := by linarith
    have h4 : ⌊m⌋ < 0 := by exact_mod_cast h3
    omega
  · exact h1
  · have hm : m - ⌊m⌋ = 1 / 2 := le_antisymm (not_lt.mp b) (not_lt.mp a)
    have h3 : ((⌊m⌋ : Int) : ℚ) < 0 := by linarith
    have h4 : ⌊m⌋ < 0 := by exact_mod_cast h3
    omega

/-- The unit in the last place of a number below `2^(k + 1)` in magnitude. -/
theorem ulpExponent_le (x : ℚ) (k : Int) (hk : 0 ≤ k) (h : |x| < 2 ^ (k + 1)) :
    ulpExponent x ≤ max (k - 52) (-1074) := by
  unfold ulpExponent
  by_cases hx : x = 0
  · subst hx
    simp only [abs_zero, Int.log_zero_right]
    omega
  · have hpos : 0 < |x| := abs_pos.mpr hx
    have hlog : Int.log 2 |x| < k + 1 :=
      (Int.lt_zpow_iff_log_lt (by norm_num) hpos).mp (by exact_mod_cast h)
    omega

/-- The unit in the last place is at most `2^-52` times the magnitude, outside
the subnormal range. -/
theorem two_zpow_log_le (x : ℚ) (hx : x ≠ 0) : (2 : ℚ) ^ Int.log 2 |x| ≤ |x| := by
  have := Int.zpow_log_le_self (b := 2) (r := |x|) (by norm_num) (abs_pos.mpr hx)
  exact_mod_cast this

/-- The magnitude is below twice the power of two at its exponent. -/
theorem lt_two_zpow_log_succ (x : ℚ) : |x| < (2 : ℚ) ^ (Int.log 2 |x| + 1) := by
  have := Int.lt_zpow_succ_log_self (b := 2) (by norm_num) |x|
  exact_mod_cast this

/-- Rounding of a number below `2^53` in magnitude: the result is finite, a
multiple of the unit in the last place, within half a unit of the number, and
of the same sign. -/
theorem roundBinary64_spec (x : ℚ) (hx : |x| < 2 ^ 53) :
    ∃ n : Int, roundBinary64 x = Binary64.fin ((n : ℚ) * 2 ^ ulpExponent x) ∧
      |(n : ℚ) * 2 ^ ulpExponent x - x| ≤ 2 ^ ulpExponent x / 2 ∧
      (0 ≤ x → 0 ≤ n) ∧ (x ≤ 0 → n ≤ 0) := by
  have hpow : (0 : ℚ) < 2 ^ ulpExponent x := zpow_pos (by norm_num) _
  have he : ulpExponent x ≤ 0 := by
    have := ulpExponent_le x 52 (by norm_num) (by norm_num; exact hx)
    omega
  have hpow1 : (2 : ℚ) ^ ulpExponent x ≤ 1 := zpow_le_one_of_nonpos₀ (by norm_num) he
  have hr := roundHalfEven_abs_sub_le (x / 2 ^ ulpExponent x)
  have herr : |(roundHalfEven (x / 2 ^ ulpExponent x) : ℚ) * 2 ^ ulpExponent x - x| ≤
      2 ^ ulpExponent x / 2 := by
    have e1 : (roundHalfEven (x / 2 ^ ulpExponent x) : ℚ) * 2 ^ ulpExponent x - x =
        ((roundHalfEven (x / 2 ^ ulpExponent x) : ℚ) - x / 2 ^ ulpExponent x) *
          2 ^ ulpExponent x := by
      field_simp
    rw [e1, abs_mul, abs_of_pos hpow]
    calc |(roundHalfEven (x / 2 ^ ulpExponent x) : ℚ) - x / 2 ^ ulpExponent x| *
          2 ^ ulpExponent x ≤ 1 / 2 * 2 ^ ulpExponent x :=
          mul_le_mul_of_nonneg_right hr hpow.le
      _ = 2 ^ ulpExponent x / 2 := by ring
  refine ⟨roundHalfEven (x / 2 ^ ulpExponent x), ?_, herr, ?_, ?_⟩
  · unfold roundBinary64
    have hlt : ¬ (2 : ℚ) ^ 1024 ≤
        |(roundHalfEven (x / 2 ^ ulpExponent x) : ℚ) * 2 ^ ulpExponent x| := by
      have h1 := abs_sub_abs_le_abs_sub
        ((roundHalfEven (x / 2 ^ ulpExponent x) : ℚ) * 2 ^ ulpExponent x) x
      have h2 : |(roundHalfEven (x / 2 ^ ulpExponent x) : ℚ) * 2 ^ ulpExponent x| <
          2 ^ 53 + 1 := by linarith
      have h3 : (2 : ℚ) ^ 53 + 1 < 2 ^ 1024 := by norm_num
      linarith
    simp only [hlt, if_false]
  · intro h0
    exact roundHalfEven_nonneg _ (div_nonneg h0 hpow.le)
  · intro h0
    exact roundHalfEven_nonpos _ (div_nonpos_of_nonpos_of_nonneg h0 hpow.le)

/-- A multiple of its own unit in the last place, below `2^1024` in magnitude,
is a binary64 number. -/
theorem isBinary64_of_multiple (x : ℚ) (z : Int) (hz : x = (z : ℚ) * 2 ^ ulpExponent x)
    (hx : |x| < 2 ^ 1024) : isBinary64 x := by
  have hpow : (0 : ℚ) < 2 ^ ulpExponent x := zpow_pos (by norm_num) _
  have hdiv : x / 2 ^ ulpExponent x = (z : ℚ) := by
    rw [div_eq_iff hpow.ne.symm]
    exact hz
  have hlt : ¬ (2 : ℚ) ^ 1024 ≤ |x| := not_le.mpr hx
  unfold isBinary64 roundBinary64
  simp only [hdiv, roundHalfEven_intCast]
  rw [← hz]
  simp only [hlt, if_false]

/-- An integer below `2^53` in magnitude is a binary64 number. -/
theorem isBinary64_intCast (z : Int) (hz : |(z : ℚ)| < 2 ^ 53) : isBinary64 (z : ℚ) := by
  have he : ulpExponent (z : ℚ) ≤ 0 := by
    have := ulpExponent_le (z : ℚ) 52 (by norm_num) (by norm_num; exact hz)
    omega
  obtain ⟨k, hk⟩ : ∃ k : ℕ, ulpExponent (z : ℚ) = -(k : Int) :=
    ⟨(-ulpExponent (z : ℚ)).toNat, by omega⟩
  apply isBinary64_of_multiple (z : ℚ) (z * 2 ^ k)
  · rw [hk, zpow_neg, zpow_natCast]
    push_cast
    field_simp
  · calc |(z : ℚ)| < 2 ^ 53 := hz
      _ < 2 ^ 1024 := by norm_num

/-- A multiple of one half below `2^52` in magnitude is a binary64 number. -/
theorem isBinary64_half (z : Int) (hz : |(z : ℚ) / 2| < 2 ^ 52) : isBinary64 ((z : ℚ) / 2) := by
  have he : ulpExponent ((z : ℚ) / 2) ≤ -1 := by
    have := ulpExponent_le ((z : ℚ) / 2) 51 (by norm_num) (by norm_num; exact hz)
    omega
  obtain ⟨k, hk⟩ : ∃ k : ℕ, ulpExponent ((z : ℚ) / 2) = -((k : Int) + 1) :=
    ⟨(-ulpExponent ((z : ℚ) / 2) - 1).toNat, by omega⟩
  apply isBinary64_of_multiple ((z : ℚ) / 2) (z * 2 ^ k)
  · rw [hk, zpow_neg, zpow_add₀ (by norm_num), zpow_natCast, zpow_one]
    push_cast
    field_simp
    ring
  · calc |(z : ℚ) / 2| < 2 ^ 52 := hz
      _ < 2 ^ 1024 := by norm_num

/-- A binary64 number is a multiple of its unit in the last place. -/
theorem isBinary64_multiple (x : ℚ) (h : isBinary64 x) :
    ∃ z : Int, x = (z : ℚ) * 2 ^ ulpExponent x := by
  unfold isBinary64 roundBinary64 at h
  simp only at h
  split at h
  · exact absurd h (by simp)
  · exact ⟨_, (Binary64.fin.inj h).symm⟩

/-- A half-integer is at least one half in magnitude. -/
theorem half_le_abs_half_integer (m : Int) : (1 / 2 : ℚ) ≤ |(m : ℚ) + 1 / 2| := by
  rcases le_or_lt 0 m with h | h
  · have h1 : (0 : ℚ) ≤ (m : ℚ) := by exact_mod_cast h
    rw [abs_of_nonneg (by linarith)]
    linarith
  · have h1 : (m : ℚ) ≤ -1 := by exact_mod_cast (by omega : m ≤ -1)
    rw [abs_of_nonpos (by linarith)]
    linarith

/-- The gap that keeps a rounded quotient on its side of a halfway point: for
a binary64 number `v` below `2^52` in magnitude and a divisor `q` of 31 bits,
a half-integer other than `v / q` is more than half a unit in the last place
of `v / q` away from `v / q`. -/
theorem quotient_gap (v : ℚ) (q m : Int) (hv : isBinary64 v) (hv2 : |v| < 2 ^ 52)
    (hq1 : 1 ≤ q) (hq2 : q ≤ 2147483647) (hne : v / (q : ℚ) ≠ (m : ℚ) + 1 / 2) :
    2 ^ ulpExponent (v / (q : ℚ)) / 2 < |(m : ℚ) + 1 / 2 - v / (q : ℚ)| := by
  have hqpos : (0 : ℚ) < (q : ℚ) := by exact_mod_cast (by omega : 0 < q)
  have hq31 : (q : ℚ) < 2 ^ 31 := by
    have : q < 2 ^ 31 := by omega
    exact_mod_cast this
  have hhalf := half_le_abs_half_integer m
  by_cases hv0 : v = 0
  · subst hv0
    simp only [zero_div, sub_zero]
    have : ulpExponent (0 : ℚ) = -52 := by
      unfold ulpExponent
      simp
    rw [this]
    have h2 : (2 : ℚ) ^ (-52 : Int) / 2 < 1 / 2 := by norm_num
    linarith
  have hy0 : v / (q : ℚ) ≠ 0 := div_ne_zero hv0 hqpos.ne.symm
  have hyabs : |v / (q : ℚ)| = |v| / (q : ℚ) := by rw [abs_div, abs_of_pos hqpos]
  by_cases hsub : Int.log 2 |v / (q : ℚ)| - 52 < -1074
  · -- the quotient is subnormal: it is far below one half
    have he : ulpExponent (v / (q : ℚ)) = -1074 := by
      unfold ulpExponent
      omega
    rw [he]
    have h1 := lt_two_zpow_log_succ (v / (q : ℚ))
    have h2 : (2 : ℚ) ^ (Int.log 2 |v / (q : ℚ)| + 1) ≤ 2 ^ (-1021 : Int) :=
      zpow_le_zpow_right₀ (by norm_num) (by omega)
    have h3 : (2 : ℚ) ^ (-1021 : Int) < 1 / 4 := by
      have : (2 : ℚ) ^ (-1021 : Int) ≤ 2 ^ (-3 : Int) :=
        zpow_le_zpow_right₀ (by norm_num) (by norm_num)
      have h8 : (2 : ℚ) ^ (-3 : Int) = 1 / 8 := by norm_num
      linarith
    have h4 : (2 : ℚ) ^ (-1074 : Int) / 2 < 1 / 4 := by
      have : (2 : ℚ) ^ (-1074 : Int) ≤ 2 ^ (-3 : Int) :=
        zpow_le_zpow_right₀ (by norm_num) (by norm_num)
      have h8 : (2 : ℚ) ^ (-3 : Int) = 1 / 8 := by norm_num
      linarith
    have h5 := abs_sub_abs_le_abs_sub ((m : ℚ) + 1 / 2) (v / (q : ℚ))
    linarith
  · -- the quotient is normal: both `q * t` and `v` are multiples of the unit of `v`
    have he : ulpExponent (v / (q : ℚ)) = Int.log 2 |v / (q : ℚ)| - 52 := by
      unfold ulpExponent
      omega
    obtain ⟨z, hz⟩ := isBinary64_multiple v hv
    have hev : ulpExponent v ≤ -1 := by
      have := ulpExponent_le v 51 (by norm_num) (by norm_num; exact hv2)
      omega
    have hev2 : Int.log 2 |v| - 52 ≤ ulpExponent v := by
      unfold ulpExponent
      omega
    obtain ⟨j, hj⟩ : ∃ j : ℕ, ulpExponent v = -((j : Int) + 1) :=
      ⟨(-ulpExponent v - 1).toNat, by omega⟩
    have hpv : (0 : ℚ) < 2 ^ ulpExponent v := zpow_pos (by norm_num) _
    -- `q * t - v` is a non-zero integer multiple of the unit of `v`
    have hmult : (q : ℚ) * ((m : ℚ) + 1 / 2) - v =
        ((q * (2 * m + 1) * 2 ^ j - z : Int) : ℚ) * 2 ^ ulpExponent v := by
      have h2j : (2 : ℚ) ^ ulpExponent v * (2 ^ j * 2) = 1 := by
        rw [hj, zpow_neg, zpow_add₀ (by norm_num), zpow_natCast, zpow_one]
        field_simp
      push_cast
      rw [sub_mul, ← hz]
      have : (q : ℚ) * (2 * (m : ℚ) + 1) * 2 ^ j * 2 ^ ulpExponent v =
          (q : ℚ) * ((m : ℚ) + 1 / 2) * (2 ^ ulpExponent v * (2 ^ j * 2)) := by ring
      rw [this, h2j]
      ring
    have hN : (q * (2 * m + 1) * 2 ^ j - z : Int) ≠ 0 := by
      intro h0
      rw [h0] at hmult
      simp only [Int.cast_zero, zero_mul] at hmult
      apply hne
      rw [div_eq_iff hqpos.ne.symm]
      linarith
    have hNabs : (1 : ℚ) ≤ |((q * (2 * m + 1) * 2 ^ j - z : Int) : ℚ)| := by
      have : (1 : Int) ≤ |q * (2 * m + 1) * 2 ^ j - z| := Int.one_le_abs hN
      exact_mod_cast this
    have hgran : 2 ^ ulpExponent v ≤ (q : ℚ) * |(m : ℚ) + 1 / 2 - v / (q : ℚ)| := by
      have e1 : (q : ℚ) * |(m : ℚ) + 1 / 2 - v / (q : ℚ)| =
          |(q : ℚ) * ((m : ℚ) + 1 / 2) - v| := by
        rw [← abs_of_pos hqpos, ← abs_mul, abs_of_pos hqpos]
        congr 1
        field_simp
        ring
      rw [e1, hmult, abs_mul, abs_of_pos hpv]
      calc (2 : ℚ) ^ ulpExponent v = 1 * 2 ^ ulpExponent v := by ring
        _ ≤ _ := mul_le_mul_of_nonneg_right hNabs hpv.le
    -- the unit of the quotient times `q` is below twice the unit of `v`
    have h1 := two_zpow_log_le (v / (q : ℚ)) hy0
    have h2 := lt_two_zpow_log_succ v
    have h3 : (q : ℚ) * 2 ^ Int.log 2 |v / (q : ℚ)| < 2 ^ (Int.log 2 |v| + 1) := by
      calc (q : ℚ) * 2 ^ Int.log 2 |v / (q : ℚ)| ≤ (q : ℚ) * |v / (q : ℚ)| :=
            mul_le_mul_of_nonneg_left h1 hqpos.le
        _ = |v| := by rw [hyabs]; field_simp
        _ < 2 ^ (Int.log 2 |v| + 1) := h2
    have h4 : (q : ℚ) * 2 ^ ulpExponent (v / (q : ℚ)) < 2 * 2 ^ ulpExponent v := by
      rw [he]
      have e2 : (2 : ℚ) ^ (Int.log 2 |v / (q : ℚ)| - 52) =
          2 ^ Int.log 2 |v / (q : ℚ)| * 2 ^ (-52 : Int) := by
        rw [← zpow_add₀ (by norm_num)]
        congr 1
      have e3 : (2 : ℚ) ^ (Int.log 2 |v| + 1) * 2 ^ (-52 : Int) =
          2 * 2 ^ (Int.log 2 |v| - 52) := by
        rw [← zpow_add₀ (by norm_num), show Int.log 2 |v| + 1 + -52 = 1 + (Int.log 2 |v| - 52) by ring,
          zpow_add₀ (by norm_num), zpow_one]
      have h5 : (2 : ℚ) ^ (Int.log 2 |v| - 52) ≤ 2 ^ ulpExponent v :=
        zpow_le_zpow_right₀ (by norm_num) hev2
      have h6 : (0 : ℚ) < 2 ^ (-52 : Int) := zpow_pos (by norm_num) _
      rw [e2]
      calc (q : ℚ) * (2 ^ Int.log 2 |v / (q : ℚ)| * 2 ^ (-52 : Int))
          = (q : ℚ) * 2 ^ Int.log 2 |v / (q : ℚ)| * 2 ^ (-52 : Int) := by ring
        _ < 2 ^ (Int.log 2 |v| + 1) * 2 ^ (-52 : Int) := mul_lt_mul_of_pos_right h3 h6
        _ = 2 * 2 ^ (Int.log 2 |v| - 52) := e3
        _ ≤ 2 * 2 ^ ulpExponent v := by linarith
    -- conclude
    have h7 : (q : ℚ) * (2 ^ ulpExponent (v / (q : ℚ)) / 2) <
        (q : ℚ) * |(m : ℚ) + 1 / 2 - v / (q : ℚ)| := by linarith
    exact lt_of_mul_lt_mul_left h7 hqpos.le

/-- The C rounding of a number strictly between `k - 1/2` and `k + 1/2`, or at
the halfway point further from zero, is `k`. -/
theorem cround_eq_of_bounds (x : ℚ) (k : Int)
    (h : (0 ≤ x ∧ (k : ℚ) - 1 / 2 ≤ x ∧ x < (k : ℚ) + 1 / 2) ∨
      (x ≤ 0 ∧ (k : ℚ) - 1 / 2 < x ∧ x ≤ (k : ℚ) + 1 / 2)) : cround x = k := by
  unfold cround
  rcases h with ⟨h0, h1, h2⟩ | ⟨h0, h1, h2⟩
  · rw [if_pos h0, Int.floor_eq_iff]
    constructor <;> linarith
  · by_cases hx : 0 ≤ x
    · have hx0 : x = 0 := le_antisymm h0 hx
      subst hx0
      have hk1 : (k : ℚ) < 1 := by linarith
      have hk2 : (-1 : ℚ) < (k : ℚ) := by linarith
      have hk3 : k < 1 := by exact_mod_cast hk1
      have hk4 : -1 < k := by exact_mod_cast hk2
      have hk : k = 0 := by omega
      subst hk
      rw [if_pos (le_refl _), Int.floor_eq_iff]
      constructor <;> norm_num
    · rw [if_neg hx, Int.ceil_eq_iff]
      constructor <;> linarith

/-- The bounds of the C rounding, as `cround_eq_of_bounds` takes them. -/
theorem cround_bounds (x : ℚ) :
    (0 ≤ x ∧ (cround x : ℚ) - 1 / 2 ≤ x ∧ x < (cround x : ℚ) + 1 / 2) ∨
      (x < 0 ∧ (cround x : ℚ) - 1 / 2 < x ∧ x ≤ (cround x : ℚ) + 1 / 2) := by
  unfold cround
  by_cases hx : 0 ≤ x
  · left
    rw [if_pos hx]
    have h1 := Int.floor_le (x + 1 / 2)
    have h2 := Int.lt_floor_add_one (x + 1 / 2)
    exact ⟨hx, by linarith, by linarith⟩
  · right
    rw [if_neg hx]
    have h1 := Int.le_ceil (x - 1 / 2)
    have h2 := Int.ceil_lt_add_one (x - 1 / 2)
    exact ⟨not_le.mp hx, by linarith, by linarith⟩

/-- Rounding the quotient to binary64 does not change the integer it is
rounded to: for a binary64 number `v` below `2^52` in magnitude and a divisor
`q` of 31 bits, `round(fl(v / q)) = round(v / q)`. -/
theorem cround_rounded_quotient (v : ℚ) (q : Int) (hv : isBinary64 v) (hv2 : |v| < 2 ^ 52)
    (hq1 : 1 ≤ q) (hq2 : q ≤ 2147483647) :
    ∃ r : ℚ, roundBinary64 (v / (q : ℚ)) = Binary64.fin r ∧
      cround r = cround (v / (q : ℚ)) := by
  have hqpos : (0 : ℚ) < (q : ℚ) := by exact_mod_cast (by omega : 0 < q)
  have hq1' : (1 : ℚ) ≤ (q : ℚ) := by exact_mod_cast hq1
  have hyabs : |v / (q : ℚ)| ≤ |v| := by
    rw [abs_div, abs_of_pos hqpos]
    exact div_le_self (abs_nonneg v) hq1'
  have hy53 : |v / (q : ℚ)| < 2 ^ 53 := by
    have : (2 : ℚ) ^ 52 < 2 ^ 53 := by norm_num
    linarith
  obtain ⟨n, hn, herr, hs1, hs2⟩ := roundBinary64_spec (v / (q : ℚ)) hy53
  refine ⟨_, hn, ?_⟩
  set y : ℚ := v / (q : ℚ) with hy
  set r : ℚ := (n : ℚ) * 2 ^ ulpExponent y with hr
  have hpow : (0 : ℚ) < 2 ^ ulpExponent y := zpow_pos (by norm_num) _
  have herr2 := abs_le.mp herr
  -- the rounded quotient is on the same side of every halfway point
  have hlt : ∀ m : Int, y < (m : ℚ) + 1 / 2 → r < (m : ℚ) + 1 / 2 := by
    intro m hm
    have hgap := quotient_gap v q m hv hv2 hq1 hq2 (ne_of_lt hm)
    rw [abs_of_pos (by linarith)] at hgap
    by_contra hcon
    have := not_lt.mp hcon
    linarith [herr2.2]
  have hgt : ∀ m : Int, (m : ℚ) + 1 / 2 < y → (m : ℚ) + 1 / 2 < r := by
    intro m hm
    have hgap := quotient_gap v q m hv hv2 hq1 hq2 (ne_of_gt hm)
    rw [abs_of_neg (by linarith)] at hgap
    by_contra hcon
    have := not_lt.mp hcon
    linarith [herr2.1]
  -- a quotient that is a halfway point is not moved
  have hexact : ∀ m : Int, y = (m : ℚ) + 1 / 2 → r = y := by
    intro m hm
    have e : y = ((2 * m + 1 : Int) : ℚ) / 2 := by
      rw [hm]; push_cast; ring
    have hb : isBinary64 y := by
      rw [e]
      apply isBinary64_half
      rw [← e]
      linarith
    have h2 : roundBinary64 y = Binary64.fin y := hb
    rw [hn] at h2
    exact Binary64.fin.inj h2
  have hr0 : (0 ≤ y → 0 ≤ r) ∧ (y ≤ 0 → r ≤ 0) := by
    constructor
    · intro h
      have : (0 : ℚ) ≤ (n : ℚ) := by exact_mod_cast hs1 h
      exact mul_nonneg this hpow.le
    · intro h
      have : (n : ℚ) ≤ 0 := by exact_mod_cast hs2 h
      exact mul_nonpos_of_nonpos_of_nonneg this hpow.le
  apply cround_eq_of_bounds
  rcases cround_bounds y with ⟨h0, h1, h2⟩ | ⟨h0, h1, h2⟩
  · left
    refine ⟨hr0.1 h0, ?_, hlt _ h2⟩
    rcases eq_or_lt_of_le h1 with heq | hlt1
    · have e : y = ((cround y - 1 : Int) : ℚ) + 1 / 2 := by
        push_cast; linarith
      rw [hexact _ e]
      linarith
    · have e : ((cround y - 1 : Int) : ℚ) + 1 / 2 < y := by
        push_cast; linarith
      have := hgt _ e
      push_cast at this
      linarith
  · right
    refine ⟨hr0.2 h0.le, ?_, ?_⟩
    · have e : ((cround y - 1 : Int) : ℚ) + 1 / 2 < y := by
        push_cast; linarith
      have := hgt _ e
      push_cast at this
      linarith
    · rcases eq_or_lt_of_le h2 with heq | hlt1
      · rw [hexact _ heq]
        linarith
      · exact (hlt _ hlt1).le

/-! ## The quantizer in binary64 -/

/-- One entry of `quantizeBinary64` on a finite coefficient of magnitude at most
`2^52`, for a quality factor between 1 and `2^31 - 1`: the product is an
integer below `2^53` in magnitude and is not rounded. -/
theorem quantizeBinary64_entry (v : ℚ) (q : Int) (hv : |v| ≤ 2 ^ 52)
    (hq1 : 1 ≤ q) (hq2 : q ≤ 2147483647) :
    ∃ r : ℚ, roundBinary64 (v / (q : ℚ)) = Binary64.fin r ∧
      Binary64.mul (Binary64.round (Binary64.div (Binary64.fin v) (Binary64.fin (q : ℚ))))
        (Binary64.fin (q : ℚ)) = Binary64.fin (((cround r * q : Int) : ℚ)) ∧
      |((cround r * q : Int) : ℚ)| < 2 ^ 53 := by
  have hqpos : (0 : ℚ) < (q : ℚ) := by exact_mod_cast (by omega : 0 < q)
  have hq1' : (1 : ℚ) ≤ (q : ℚ) := by exact_mod_cast hq1
  have hq31 : (q : ℚ) ≤ 2147483647 := by exact_mod_cast hq2
  have hyabs : |v / (q : ℚ)| ≤ |v| := by
    rw [abs_div, abs_of_pos hqpos]
    exact div_le_self (abs_nonneg v) hq1'
  have hy53 : |v / (q : ℚ)| < 2 ^ 53 := by
    have : (2 : ℚ) ^ 52 < 2 ^ 53 := by norm_num
    linarith
  obtain ⟨n, hn, herr, -, -⟩ := roundBinary64_spec (v / (q : ℚ)) hy53
  have he : ulpExponent (v / (q : ℚ)) ≤ 0 := by
    have := ulpExponent_le (v / (q : ℚ)) 52 (by norm_num) (by norm_num; exact hy53)
    omega
  have hpow1 : (2 : ℚ) ^ ulpExponent (v / (q : ℚ)) ≤ 1 := zpow_le_one_of_nonpos₀ (by norm_num) he
  set r : ℚ := (n : ℚ) * 2 ^ ulpExponent (v / (q : ℚ)) with hr
  have h1 := abs_le.mp herr
  have h2 := abs_le.mp (cround_abs_sub_le r)
  have hk : |(cround r : ℚ) * (q : ℚ) - v| ≤ (q : ℚ) := by
    have e : (cround r : ℚ) * (q : ℚ) - v = ((cround r : ℚ) - v / (q : ℚ)) * (q : ℚ) := by
      field_simp
    rw [e, abs_mul, abs_of_pos hqpos]
    have : |(cround r : ℚ) - v / (q : ℚ)| ≤ 1 := by
      rw [abs_le]
      constructor <;> linarith [h1.1, h1.2, h2.1, h2.2]
    calc |(cround r : ℚ) - v / (q : ℚ)| * (q : ℚ) ≤ 1 * (q : ℚ) :=
          mul_le_mul_of_nonneg_right this hqpos.le
      _ = (q : ℚ) := by ring
  have hbound : |((cround r * q : Int) : ℚ)| < 2 ^ 53 := by
    push_cast
    have h3 := abs_sub_abs_le_abs_sub ((cround r : ℚ) * (q : ℚ)) v
    have h4 : (2 : ℚ) ^ 52 + 2147483647 < 2 ^ 53 := by norm_num
    linarith
  refine ⟨r, hn, ?_, hbound⟩
  have hb := isBinary64_intCast (cround r * q) hbound
  unfold isBinary64 at hb
  simp only [Binary64.div, hqpos.ne.symm, if_false, hn, Binary64.round, Binary64.mul]
  rw [← hb]
  push_cast
  rfl

/-- One entry of `quantizeBinary64` on a product `k * q` below `2^53` in
magnitude: it is returned unchanged. -/
theorem quantizeBinary64_entry_multiple (k q : Int) (hq1 : 1 ≤ q)
    (hk : |((k * q : Int) : ℚ)| < 2 ^ 53) :
    Binary64.mul (Binary64.round (Binary64.div (Binary64.fin ((k * q : Int) : ℚ))
        (Binary64.fin (q : ℚ)))) (Binary64.fin (q : ℚ)) = Binary64.fin ((k * q : Int) : ℚ) := by
  have hqpos : (0 : ℚ) < (q : ℚ) := by exact_mod_cast (by omega : 0 < q)
  have hq1' : (1 : ℚ) ≤ (q : ℚ) := by exact_mod_cast hq1
  have hdiv : ((k * q : Int) : ℚ) / (q : ℚ) = (k : ℚ) := by
    push_cast
    field_simp
  have hkabs : |(k : ℚ)| < 2 ^ 53 := by
    have : |(k : ℚ)| ≤ |((k * q : Int) : ℚ)| := by
      push_cast
      rw [abs_mul, abs_of_pos hqpos]
      exact le_mul_of_one_le_right (abs_nonneg _) hq1'
    linarith
  have hb1 := isBinary64_intCast k hkabs
  have hb2 := isBinary64_intCast (k * q) hk
  unfold isBinary64 at hb1 hb2
  simp only [Binary64.div, hqpos.ne.symm, if_false, hdiv, hb1, Binary64.round, cround_intCast,
    Binary64.mul]
  rw [← hb2]
  push_cast
  rfl

/-- C8, as amended. Quantization idempotence in binary64: for a quality factor
between 1 and `2^31 - 1` and a coefficient sequence whose finite entries are
at most `2^52` in magnitude, quantizing the quantized sequence changes
nothing. -/
theorem quantizeBinary64_idempotent (X : List Binary64) (q : Int) (hq1 : 1 ≤ q)
    (hq2 : q ≤ 2147483647) (hX : ∀ v : ℚ, Binary64.fin v ∈ X → |v| ≤ 2 ^ 52) :
    quantizeBinary64 (quantizeBinary64 X q) q = quantizeBinary64 X q := by
  have hqpos : (0 : ℚ) < (q : ℚ) := by exact_mod_cast (by omega : 0 < q)
  have hqneg : ¬ (q : ℚ) < 0 := not_lt.mpr hqpos.le
  simp only [quantizeBinary64, List.map_map]
  apply List.map_congr_left
  intro val hval
  simp only [Function.comp]
  cases val with
  | nan => simp [Binary64.div, Binary64.round, Binary64.mul]
  | inf s => simp [Binary64.div, Binary64.round, Binary64.mul, hqpos.ne.symm, hqneg]
  | fin v =>
    obtain ⟨r, -, h2, h3⟩ := quantizeBinary64_entry v q (hX v hval) hq1 hq2
    rw [h2]
    exact quantizeBinary64_entry_multiple (cround r) q hq1 h3

/-- The C rounding of a quotient, scaled back: within `q / 2` of the dividend,
and further from zero than the dividend in a halfway case. -/
theorem cround_quotient_spec (v : ℚ) (q : Int) (hq1 : 1 ≤ q) :
    |((cround (v / (q : ℚ)) * q : Int) : ℚ) - v| ≤ (q : ℚ) / 2 ∧
    (|((cround (v / (q : ℚ)) * q : Int) : ℚ) - v| = (q : ℚ) / 2 →
      |v| < |((cround (v / (q : ℚ)) * q : Int) : ℚ)|) := by
  have hqpos : (0 : ℚ) < (q : ℚ) := by exact_mod_cast (by omega : 0 < q)
  have hq0 : (q : ℚ) ≠ 0 := hqpos.ne.symm
  have hdiff : ((cround (v / (q : ℚ)) * q : Int) : ℚ) - v =
      ((cround (v / (q : ℚ)) : ℚ) - v / (q : ℚ)) * (q : ℚ) := by
    push_cast
    field_simp
  constructor
  · rw [hdiff, abs_mul, abs_of_pos hqpos]
    have := cround_abs_sub_le (v / (q : ℚ))
    calc |(cround (v / (q : ℚ)) : ℚ) - v / (q : ℚ)| * (q : ℚ)
        ≤ 1 / 2 * (q : ℚ) := mul_le_mul_of_nonneg_right this hqpos.le
      _ = (q : ℚ) / 2 := by ring
  · intro htie
    rw [hdiff, abs_mul, abs_of_pos hqpos] at htie
    have h2 : |(cround (v / (q : ℚ)) : ℚ) - v / (q : ℚ)| = 1 / 2 := by
      have h4 : |(cround (v / (q : ℚ)) : ℚ) - v / (q : ℚ)| * (q : ℚ) = 1 / 2 * (q : ℚ) := by
        rw [htie]
        ring
      exact mul_right_cancel₀ hq0 h4
    have h3 := cround_tie (v / (q : ℚ)) h2
    push_cast
    rw [abs_mul, h3, abs_div, abs_of_pos hqpos, add_mul, div_mul_cancel₀ _ hq0]
    linarith

/-- C9, as amended. Quantize snaps to the nearest multiple in binary64: for a
quality factor `q` between 1 and `2^31 - 1` and a coefficient sequence whose
finite entries are binary64 numbers below `2^52` in magnitude, the output has
the length of the input; where the input holds the finite `v` the output holds
`k * q` for an integer `k`, at most `q / 2` away from `v`, and further from
zero than `v` when exactly `q / 2` away; an entry that is not finite is
returned unchanged. -/
theorem quantizeBinary64_nearest_multiple (X : List Binary64) (q : Int) (hq1 : 1 ≤ q)
    (hq2 : q ≤ 2147483647)
    (hX : ∀ v : ℚ, Binary64.fin v ∈ X → isBinary64 v ∧ |v| < 2 ^ 52) :
    (quantizeBinary64 X q).length = X.length ∧
    (∀ (i : Nat) (v : ℚ), X[i]? = some (Binary64.fin v) →
      ∃ k : Int, (quantizeBinary64 X q)[i]? = some (Binary64.fin ((k * q : Int) : ℚ)) ∧
        |((k * q : Int) : ℚ) - v| ≤ (q : ℚ) / 2 ∧
        (|((k * q : Int) : ℚ) - v| = (q : ℚ) / 2 → |v| < |((k * q : Int) : ℚ)|)) ∧
    (∀ i : Nat, X[i]? = some Binary64.nan → (quantizeBinary64 X q)[i]? = some Binary64.nan) ∧
    (∀ (i : Nat) (s : Bool), X[i]? = some (Binary64.inf s) →
      (quantizeBinary64 X q)[i]? = some (Binary64.inf s)) := by
  have hqpos : (0 : ℚ) < (q : ℚ) := by exact_mod_cast (by omega : 0 < q)
  have hqneg : ¬ (q : ℚ) < 0 := not_lt.mpr hqpos.le
  refine ⟨by simp [quantizeBinary64], ?_, ?_, ?_⟩
  · intro i v hv
    have hmem : Binary64.fin v ∈ X := List.getElem?_mem hv
    obtain ⟨hb, hlt⟩ := hX v hmem
    obtain ⟨r, hr1, hr2, -⟩ := quantizeBinary64_entry v q hlt.le hq1 hq2
    obtain ⟨r2, hr3, hr4⟩ := cround_rounded_quotient v q hb hlt hq1 hq2
    have hrr : r = r2 := Binary64.fin.inj (hr1.symm.trans hr3)
    rw [hrr, hr4] at hr2
    refine ⟨cround (v / (q : ℚ)), ?_, (cround_quotient_spec v q hq1).1,
      (cround_quotient_spec v q hq1).2⟩
    simp only [quantizeBinary64, List.getElem?_map, hv, Option.map_some', hr2]
  · intro i hi
    simp [quantizeBinary64, List.getElem?_map, hi, Binary64.div, Binary64.round, Binary64.mul]
  · intro i s hi
    simp [quantizeBinary64, List.getElem?_map, hi, Binary64.div, Binary64.round, Binary64.mul,
      hqpos.ne.symm, hqneg]

/-- C13, as amended. A quality factor of zero raises no error: `quantize`
returns a sequence of the length of its input in which every entry is NaN. -/
theorem quantizeBinary64_zero_all_nan (X : List Binary64) :
    quantizeBinary64 X 0 = List.replicate X.length Binary64.nan := by
  unfold quantizeBinary64
  induction X with
  | nil => rfl
  | cons a X ih =>
    rw [List.map_cons, ih, List.length_cons, List.replicate_succ]
    congr 1
    cases a with
    | nan => simp [Binary64.div, Binary64.round, Binary64.mul]
    | inf s => simp [Binary64.div, Binary64.round, Binary64.mul]
    | fin v =>
      by_cases hv : v = 0
      · simp [Binary64.div, Binary64.round, Binary64.mul, hv]
      · simp [Binary64.div, Binary64.round, Binary64.mul, hv]

/-- The unit in the last place of a number with a known exponent. -/
theorem ulpExponent_eq (x : ℚ) (L : Int) (h1 : 2 ^ L ≤ |x|) (h2 : |x| < 2 ^ (L + 1))
    (h3 : -1074 ≤ L - 52) : ulpExponent x = L - 52 := by
  have hpos : 0 < |x| := lt_of_lt_of_le (zpow_pos (by norm_num) L) h1
  have hl1 : L ≤ Int.log 2 |x| :=
    (Int.zpow_le_iff_le_log (by norm_num) hpos).mp (by exact_mod_cast h1)
  have hl2 : Int.log 2 |x| < L + 1 :=
    (Int.lt_zpow_iff_log_lt (by norm_num) hpos).mp (by exact_mod_cast h2)
  unfold ulpExponent
  omega

/-- Rounding to the integer that is less than one half away. -/
theorem roundHalfEven_of_abs_lt (m : ℚ) (n : Int) (h : |m - (n : ℚ)| < 1 / 2) :
    roundHalfEven m = n := by
  have h' := abs_lt.mp h
  unfold roundHalfEven
  rcases le_or_lt (n : ℚ) m with hle | hlt
  · have hf : ⌊m⌋ = n := by
      rw [Int.floor_eq_iff]
      constructor <;> linarith
    rw [hf, if_pos (by linarith)]
  · have hf : ⌊m⌋ = n - 1 := by
      rw [Int.floor_eq_iff]
      push_cast
      constructor <;> linarith
    rw [hf]
    push_cast
    rw [if_neg (by linarith), if_pos (by linarith)]
    ring

/-- Rounding a halfway case to the even neighbour. -/
theorem roundHalfEven_half (f : Int) :
    roundHalfEven ((f : ℚ) + 1 / 2) = if f % 2 = 0 then f else f + 1 := by
  have hf : ⌊(f : ℚ) + 1 / 2⌋ = f := by
    rw [Int.floor_eq_iff]
    constructor <;> linarith
  unfold roundHalfEven
  rw [hf]
  have e : (f : ℚ) + 1 / 2 - (f : ℚ) = 1 / 2 := by ring
  rw [e, if_neg (lt_irrefl _), if_neg (lt_irrefl _)]

/-- Rounding to binary64 of a number with a known exponent and a known
rounded significand. -/
theorem roundBinary64_eval (x : ℚ) (L n : Int) (h1 : 2 ^ L ≤ |x|) (h2 : |x| < 2 ^ (L + 1))
    (h3 : -1074 ≤ L - 52) (hn : roundHalfEven (x / 2 ^ (L - 52)) = n)
    (hov : |(n : ℚ) * 2 ^ (L - 52)| < 2 ^ 1024) :
    roundBinary64 x = Binary64.fin ((n : ℚ) * 2 ^ (L - 52)) := by
  unfold roundBinary64
  simp only [ulpExponent_eq x L h1 h2 h3, hn, not_le.mpr hov, if_false]

/-- One entry of `quantizeBinary64` from its three steps. -/
theorem quantizeBinary64_single (v r p : ℚ) (q k : Int) (hq : (q : ℚ) ≠ 0)
    (hdiv : roundBinary64 (v / (q : ℚ)) = Binary64.fin r) (hround : cround r = k)
    (hmul : roundBinary64 ((k : ℚ) * (q : ℚ)) = Binary64.fin p) :
    quantizeBinary64 [Binary64.fin v] q = [Binary64.fin p] := by
  simp only [quantizeBinary64, List.map_cons, List.map_nil, Binary64.div, hq, if_false, hdiv,
    Binary64.round, hround, Binary64.mul, hmul]

/-- The first pass on `9008834025414122` at quality 3. -/
theorem quantizeBinary64_first_pass :
    quantizeBinary64 [Binary64.fin 9008834025414122] 3 = [Binary64.fin 9008834025414124] := by
  apply quantizeBinary64_single 9008834025414122 (6005889350276081 / 2) 9008834025414124 3
    3002944675138041 (by norm_num)
  · have h := roundBinary64_eval (9008834025414122 / ((3 : Int) : ℚ)) 51 6005889350276081
      (by norm_num [abs_of_pos]) (by norm_num [abs_of_pos]) (by norm_num)
      (roundHalfEven_of_abs_lt _ _ (by norm_num [abs_lt])) (by norm_num [abs_of_pos])
    rw [h]
    norm_num
  · apply cround_eq_of_bounds
    left
    norm_num
  · have h := roundBinary64_eval ((3002944675138041 : Int) * ((3 : Int) : ℚ)) 53 4504417012707062
      (by norm_num [abs_of_pos]) (by norm_num [abs_of_pos]) (by norm_num)
      (by
        have e : ((3002944675138041 : Int) : ℚ) * ((3 : Int) : ℚ) / 2 ^ ((53 : Int) - 52) =
            ((4504417012707061 : Int) : ℚ) + 1 / 2 := by norm_num
        rw [e, roundHalfEven_half]
        decide)
      (by norm_num [abs_of_pos])
    rw [h]
    norm_num

/-- The second pass, on `9008834025414124` at quality 3. -/
theorem quantizeBinary64_second_pass :
    quantizeBinary64 [Binary64.fin 9008834025414124] 3 = [Binary64.fin 9008834025414126] := by
  apply quantizeBinary64_single 9008834025414124 (6005889350276083 / 2) 9008834025414126 3
    3002944675138042 (by norm_num)
  · have h := roundBinary64_eval (9008834025414124 / ((3 : Int) : ℚ)) 51 6005889350276083
      (by norm_num [abs_of_pos]) (by norm_num [abs_of_pos]) (by norm_num)
      (roundHalfEven_of_abs_lt _ _ (by norm_num [abs_lt])) (by norm_num [abs_of_pos])
    rw [h]
    norm_num
  · apply cround_eq_of_bounds
    left
    norm_num
  · have h := roundBinary64_eval ((3002944675138042 : Int) * ((3 : Int) : ℚ)) 53 4504417012707063
      (by norm_num [abs_of_pos]) (by norm_num [abs_of_pos]) (by norm_num)
      (by
        have e : ((3002944675138042 : Int) : ℚ) * ((3 : Int) : ℚ) / 2 ^ ((53 : Int) - 52) =
            ((4504417012707063 : Int) : ℚ) := by norm_num
        rw [e, roundHalfEven_intCast])
      (by norm_num [abs_of_pos])
    rw [h]
    norm_num

/-- An even integer between `2^53` and `2^54` is a binary64 number. -/
theorem isBinary64_even (z : Int) (h1 : (2 : ℚ) ^ 53 ≤ ((2 * z : Int) : ℚ))
    (h2 : ((2 * z : Int) : ℚ) < 2 ^ 54) : isBinary64 ((2 * z : Int) : ℚ) := by
  have hpos : (0 : ℚ) < ((2 * z : Int) : ℚ) := lt_of_lt_of_le (by norm_num) h1
  have he : ulpExponent ((2 * z : Int) : ℚ) = 1 := by
    have := ulpExponent_eq ((2 * z : Int) : ℚ) 53
      (by rw [abs_of_pos hpos]; exact_mod_cast h1)
      (by rw [abs_of_pos hpos]; exact_mod_cast h2) (by norm_num)
    omega
  apply isBinary64_of_multiple _ z
  · rw [he]
    push_cast
    ring
  · rw [abs_of_pos hpos]
    calc ((2 * z : Int) : ℚ) < 2 ^ 54 := h2
      _ < 2 ^ 1024 := by norm_num

/-- On finite binary64 coefficients below `2^52` in magnitude and a quality
factor between 1 and `2^31 - 1`, the binary64 quantizer and the quantizer in
exact arithmetic compute the same numbers. -/
theorem quantizeBinary64_eq_quantize (X : List ℚ) (q : Int) (hq1 : 1 ≤ q)
    (hq2 : q ≤ 2147483647) (hX : ∀ v ∈ X, isBinary64 v ∧ |v| < 2 ^ 52) :
    quantizeBinary64 (X.map Binary64.fin) q =
      (X.map fun v => (cround (v / (q : ℚ)) : ℚ) * (q : ℚ)).map Binary64.fin ∧
    quantize (X.map some) q =
      (X.map fun v => (cround (v / (q : ℚ)) : ℚ) * (q : ℚ)).map some := by
  have hqpos : (0 : ℚ) < (q : ℚ) := by exact_mod_cast (by omega : 0 < q)
  constructor
  · simp only [quantizeBinary64, List.map_map]
    apply List.map_congr_left
    intro v hv
    obtain ⟨hb, hlt⟩ := hX v hv
    obtain ⟨r, hr1, hr2, -⟩ := quantizeBinary64_entry v q hlt.le hq1 hq2
    obtain ⟨r2, hr3, hr4⟩ := cround_rounded_quotient v q hb hlt hq1 hq2
    have hrr : r = r2 := Binary64.fin.inj (hr1.symm.trans hr3)
    rw [hrr, hr4] at hr2
    simp only [Function.comp, hr2]
    push_cast
    rfl
  · exact quantize_finite X q hqpos.ne.symm

/-- C8 fails on the code: the binary64 number `9008834025414122` quantizes at
quality 3 to `9008834025414124`, and that to `9008834025414126`. -/
theorem quantize_idempotent_counterexample :
    isBinary64 9008834025414122 ∧
    quantizeBinary64 [Binary64.fin 9008834025414122] 3 = [Binary64.fin 9008834025414124] ∧
    quantizeBinary64 (quantizeBinary64 [Binary64.fin 9008834025414122] 3) 3 =
      [Binary64.fin 9008834025414126] ∧
    quantizeBinary64 (quantizeBinary64 [Binary64.fin 9008834025414122] 3) 3 ≠
      quantizeBinary64 [Binary64.fin 9008834025414122] 3 := by
  have h0 : isBinary64 9008834025414122 := by
    have := isBinary64_even 4504417012707061 (by norm_num) (by norm_num)
    norm_num at this
    exact this
  refine ⟨h0, quantizeBinary64_first_pass, ?_, ?_⟩
  · rw [quantizeBinary64_first_pass, quantizeBinary64_second_pass]
  · rw [quantizeBinary64_first_pass, quantizeBinary64_second_pass]
    intro h
    have := Binary64.fin.inj (List.head_eq_of_cons_eq h)
    norm_num at this

/-- C8, as amended, on a sequence with finite and non-finite entries at
quality 10. -/
theorem quantizeBinary64_idempotent_witness :
    (1 : Int) ≤ 10 ∧ (10 : Int) ≤ 2147483647 ∧
    (∀ v : ℚ, Binary64.fin v ∈
      [Binary64.fin 7, Binary64.fin (-5), Binary64.nan, Binary64.inf true] → |v| ≤ 2 ^ 52) ∧
    quantizeBinary64 (quantizeBinary64
        [Binary64.fin 7, Binary64.fin (-5), Binary64.nan, Binary64.inf true] 10) 10 =
      quantizeBinary64 [Binary64.fin 7, Binary64.fin (-5), Binary64.nan, Binary64.inf true] 10 := by
  have h : ∀ v : ℚ, Binary64.fin v ∈
      [Binary64.fin 7, Binary64.fin (-5), Binary64.nan, Binary64.inf true] → |v| ≤ 2 ^ 52 := by
    intro v hv
    simp only [List.mem_cons, Binary64.fin.injEq, List.mem_singleton, reduceCtorEq, or_false,
      false_or, List.not_mem_nil] at hv
    rcases hv with rfl | rfl <;> norm_num [abs_le]
  exact ⟨by decide, by decide, h, quantizeBinary64_idempotent _ 10 (by decide) (by decide) h⟩

/-- The first pass on `2^53 + 2` at quality 3. -/
theorem quantizeBinary64_far_multiple :
    quantizeBinary64 [Binary64.fin 9007199254740994] 3 = [Binary64.fin 9007199254740996] := by
  apply quantizeBinary64_single 9007199254740994 (6004799503160663 / 2) 9007199254740996 3
    3002399751580332 (by norm_num)
  · have h := roundBinary64_eval (9007199254740994 / ((3 : Int) : ℚ)) 51 6004799503160663
      (by norm_num [abs_of_pos]) (by norm_num [abs_of_pos]) (by norm_num)
      (roundHalfEven_of_abs_lt _ _ (by norm_num [abs_lt])) (by norm_num [abs_of_pos])
    rw [h]
    norm_num
  · apply cround_eq_of_bounds
    left
    norm_num
  · have h := roundBinary64_eval ((3002399751580332 : Int) * ((3 : Int) : ℚ)) 53 4503599627370498
      (by norm_num [abs_of_pos]) (by norm_num [abs_of_pos]) (by norm_num)
      (by
        have e : ((3002399751580332 : Int) : ℚ) * ((3 : Int) : ℚ) / 2 ^ ((53 : Int) - 52) =
            ((4503599627370498 : Int) : ℚ) := by norm_num
        rw [e, roundHalfEven_intCast])
      (by norm_num [abs_of_pos])
    rw [h]
    norm_num

/-- C9 fails on the code: the binary64 number `2^53 + 2 = 9007199254740994`
quantizes at quality 3 to `9007199254740996`, which is 2 away from it, more
than `q / 2 = 3/2`. -/
theorem quantize_nearest_multiple_counterexample :
    isBinary64 9007199254740994 ∧
    quantizeBinary64 [Binary64.fin 9007199254740994] 3 = [Binary64.fin 9007199254740996] ∧
    ((3 : Int) : ℚ) / 2 < |(9007199254740996 : ℚ) - 9007199254740994| := by
  have h0 : isBinary64 9007199254740994 := by
    have := isBinary64_even 4503599627370497 (by norm_num) (by norm_num)
    norm_num at this
    exact this
  refine ⟨h0, quantizeBinary64_far_multiple, ?_⟩
  norm_num [abs_of_pos]

/-- C9, as amended, on a sequence whose second entry, `-5`, is a halfway case
at quality 10. -/
theorem quantizeBinary64_nearest_multiple_witness :
    (1 : Int) ≤ 10 ∧ (10 : Int) ≤ 2147483647 ∧
    (∀ v : ℚ, Binary64.fin v ∈ [Binary64.fin 7, Binary64.fin (-5), Binary64.nan] →
      isBinary64 v ∧ |v| < 2 ^ 52) ∧
    ((quantizeBinary64 [Binary64.fin 7, Binary64.fin (-5), Binary64.nan] 10).length =
      [Binary64.fin 7, Binary64.fin (-5), Binary64.nan].length ∧
    (∀ (i : Nat) (v : ℚ),
      [Binary64.fin 7, Binary64.fin (-5), Binary64.nan][i]? = some (Binary64.fin v) →
      ∃ k : Int, (quantizeBinary64 [Binary64.fin 7, Binary64.fin (-5), Binary64.nan] 10)[i]? =
          some (Binary64.fin ((k * 10 : Int) : ℚ)) ∧
        |((k * 10 : Int) : ℚ) - v| ≤ ((10 : Int) : ℚ) / 2 ∧
        (|((k * 10 : Int) : ℚ) - v| = ((10 : Int) : ℚ) / 2 → |v| < |((k * 10 : Int) : ℚ)|)) ∧
    (∀ i : Nat, [Binary64.fin 7, Binary64.fin (-5), Binary64.nan][i]? = some Binary64.nan →
      (quantizeBinary64 [Binary64.fin 7, Binary64.fin (-5), Binary64.nan] 10)[i]? =
        some Binary64.nan) ∧
    (∀ (i : Nat) (s : Bool),
      [Binary64.fin 7, Binary64.fin (-5), Binary64.nan][i]? = some (Binary64.inf s) →
      (quantizeBinary64 [Binary64.fin 7, Binary64.fin (-5), Binary64.nan] 10)[i]? =
        some (Binary64.inf s))) := by
  have h : ∀ v : ℚ, Binary64.fin v ∈ [Binary64.fin 7, Binary64.fin (-5), Binary64.nan] →
      isBinary64 v ∧ |v| < 2 ^ 52 := by
    intro v hv
    simp only [List.mem_cons, Binary64.fin.injEq, List.mem_singleton, reduceCtorEq, or_false,
      false_or, List.not_mem_nil] at hv
    rcases hv with rfl | rfl
    · have := isBinary64_intCast 7 (by norm_num [abs_lt])
      exact ⟨by simpa using this, by norm_num [abs_lt]⟩
    · have := isBinary64_intCast (-5) (by norm_num [abs_lt])
      exact ⟨by simpa using this, by norm_num [abs_lt]⟩
  exact ⟨by decide, by decide, h,
    quantizeBinary64_nearest_multiple _ 10 (by decide) (by decide) h⟩

/-- C13 fails on the code: at quality 0 a sequence is returned, and every
entry of it is NaN. -/
theorem quantizeBinary64_zero_counterexample :
    quantizeBinary64 [Binary64.fin 1, Binary64.fin (-3), Binary64.fin 0, Binary64.inf false] 0 =
      [Binary64.nan, Binary64.nan, Binary64.nan, Binary64.nan] := by
  simp [quantizeBinary64, Binary64.div, Binary64.round, Binary64.mul]

end ImageCompression
